import Mathlib

/-!
Verification development for the indexing and retrieval engine of `ir.py`
(class `InformationRetrievalSystem`).

Modelling conventions:
* Python dicts are shallow-embedded as insertion-ordered association lists
  (`List (κ × β)`); dict assignment `m[k] = v` keeps the position of an
  existing key (`dictSet`), and `defaultdict(list)` appending is `ddAppend`.
* Machine floats are modelled as real numbers (`ℝ`); `math.log` is
  `Real.log` and `math.sqrt` is `Real.sqrt`.
* File input is shallow-embedded: the corpus handed to a build is a list of
  `(doc_id, metadata, content)` rows, and the file system of the loader is
  an association list `filename ↦ content`.  The file system is static
  during a run.
* A Python `sorted(..., key=..., reverse=True)` call is a stable descending
  sort; `sortDesc` below implements exactly that order.
* Where the Python code would raise an exception (dict indexing with a
  missing key, unparsable `int(...)`, missing file), the embedded function
  returns `none` / `.error`; a normally returned value is `some` / `.ok`.
-/

/-! ## Association lists as insertion-ordered Python dicts -/

/-- Python dict assignment `m[k] = v`: replace the value of an existing key
in place, otherwise append the new binding at the end. -/
def dictSet {κ β : Type*} [DecidableEq κ] : List (κ × β) → κ → β → List (κ × β)
  | [], k, v => [(k, v)]
  | (k', v') :: rest, k, v =>
      if k' = k then (k, v) :: rest else (k', v') :: dictSet rest k v

/-- Python `defaultdict(list)` append `m[k].append(e)`: extend the list of an
existing key in place, otherwise add the key at the end with `[e]`. -/
def ddAppend {κ β : Type*} [DecidableEq κ] : List (κ × List β) → κ → β → List (κ × List β)
  | [], k, e => [(k, [e])]
  | (k', l) :: rest, k, e =>
      if k' = k then (k', l ++ [e]) :: rest else (k', l) :: ddAppend rest k e

/-- Keys of an association list, in insertion order. -/
def keysOf {κ β : Type*} (m : List (κ × β)) : List κ := m.map Prod.fst

theorem keysOf_nil {κ β : Type*} : keysOf ([] : List (κ × β)) = [] := rfl

theorem keysOf_cons {κ β : Type*} (p : κ × β) (l : List (κ × β)) :
    keysOf (p :: l) = p.1 :: keysOf l := rfl

theorem mem_keysOf {κ β : Type*} {m : List (κ × β)} {k : κ} :
    k ∈ keysOf m ↔ ∃ v, (k, v) ∈ m := by
  constructor
  · intro h
    obtain ⟨p, hp, hk⟩ := List.mem_map.mp h
    exact ⟨p.2, by simpa [← hk] using hp⟩
  · rintro ⟨v, hv⟩
    exact List.mem_map.mpr ⟨(k, v), hv, rfl⟩

theorem lookup_cons {κ β : Type*} [DecidableEq κ] (a : κ) (b : β) (rest : List (κ × β))
    (k : κ) : ((a, b) :: rest).lookup k = if k = a then some b else rest.lookup k := by
  by_cases h : k = a
  · subst h; simp [List.lookup]
  · simp [List.lookup, beq_eq_false_iff_ne.mpr h, h]

theorem lookup_dictSet {κ β : Type*} [DecidableEq κ] (m : List (κ × β)) (k : κ) (v : β)
    (k' : κ) : (dictSet m k v).lookup k' = if k' = k then some v else m.lookup k' := by
  induction m with
  | nil => by_cases h : k' = k <;> simp [dictSet, lookup_cons, h]
  | cons p rest ih =>
      obtain ⟨a, b⟩ := p
      by_cases hak : a = k
      · subst hak
        by_cases h : k' = a <;> simp [dictSet, lookup_cons, h]
      · by_cases h : k' = a
        · subst h
          have hk : ¬k' = k := fun hh => hak (hh ▸ rfl)
          simp [dictSet, hak, lookup_cons, hk]
        · simp [dictSet, hak, lookup_cons, h, ih]

theorem lookup_ddAppend {κ β : Type*} [DecidableEq κ] (m : List (κ × List β)) (k : κ) (e : β)
    (k' : κ) : (ddAppend m k e).lookup k' =
      if k' = k then some ((m.lookup k).getD [] ++ [e]) else m.lookup k' := by
  induction m with
  | nil => by_cases h : k' = k <;> simp [ddAppend, lookup_cons, h]
  | cons p rest ih =>
      obtain ⟨a, b⟩ := p
      by_cases hak : a = k
      · subst hak
        by_cases h : k' = a <;> simp [ddAppend, lookup_cons, h]
      · have hka : ¬k = a := fun hh => hak hh.symm
        by_cases h : k' = a
        · subst h
          have hk : ¬k' = k := fun hh => hak (hh ▸ rfl)
          simp [ddAppend, hak, lookup_cons, hk]
        · simp [ddAppend, hak, lookup_cons, h, hka, ih]

theorem keysOf_dictSet {κ β : Type*} [DecidableEq κ] (m : List (κ × β)) (k : κ) (v : β) :
    keysOf (dictSet m k v) = if k ∈ keysOf m then keysOf m else keysOf m ++ [k] := by
  induction m with
  | nil => simp [dictSet, keysOf_nil, keysOf_cons]
  | cons p rest ih =>
      obtain ⟨a, b⟩ := p
      by_cases hak : a = k
      · subst hak; simp [dictSet, keysOf_cons]
      · have hka : ¬k = a := fun hh => hak hh.symm
        by_cases hmem : k ∈ keysOf rest
        · simp [dictSet, hak, keysOf_cons, hka, hmem, ih]
        · simp [dictSet, hak, keysOf_cons, hka, hmem, ih]

theorem keysOf_ddAppend {κ β : Type*} [DecidableEq κ] (m : List (κ × List β)) (k : κ) (e : β) :
    keysOf (ddAppend m k e) = if k ∈ keysOf m then keysOf m else keysOf m ++ [k] := by
  induction m with
  | nil => simp [ddAppend, keysOf_nil, keysOf_cons]
  | cons p rest ih =>
      obtain ⟨a, b⟩ := p
      by_cases hak : a = k
      · subst hak; simp [ddAppend, keysOf_cons]
      · have hka : ¬k = a := fun hh => hak hh.symm
        by_cases hmem : k ∈ keysOf rest
        · simp [ddAppend, hak, keysOf_cons, hka, hmem, ih]
        · simp [ddAppend, hak, keysOf_cons, hka, hmem, ih]

theorem nodup_keysOf_dictSet {κ β : Type*} [DecidableEq κ] (m : List (κ × β)) (k : κ) (v : β)
    (h : (keysOf m).Nodup) : (keysOf (dictSet m k v)).Nodup := by
  rw [keysOf_dictSet]
  by_cases hmem : k ∈ keysOf m
  · simpa [hmem]
  · simpa [hmem, List.nodup_append] using h

theorem nodup_keysOf_ddAppend {κ β : Type*} [DecidableEq κ] (m : List (κ × List β)) (k : κ)
    (e : β) (h : (keysOf m).Nodup) : (keysOf (ddAppend m k e)).Nodup := by
  rw [keysOf_ddAppend]
  by_cases hmem : k ∈ keysOf m
  · simpa [hmem]
  · simpa [hmem, List.nodup_append] using h

theorem lookup_isSome_iff_mem_keysOf {κ β : Type*} [DecidableEq κ] (m : List (κ × β)) (k : κ) :
    (m.lookup k).isSome ↔ k ∈ keysOf m := by
  induction m with
  | nil => simp [keysOf]
  | cons p rest ih =>
      obtain ⟨a, b⟩ := p
      by_cases h : k = a
      · subst h; simp [lookup_cons, keysOf]
      · simp [lookup_cons, keysOf, h, ih]

theorem lookup_eq_some_of_mem_of_nodup {κ β : Type*} [DecidableEq κ]
    {m : List (κ × β)} {k : κ} {v : β} (hmem : (k, v) ∈ m) (hnd : (keysOf m).Nodup) :
    m.lookup k = some v := by
  induction m with
  | nil => simp at hmem
  | cons p rest ih =>
      obtain ⟨a, b⟩ := p
      rcases List.mem_cons.mp hmem with h | h
      · cases h; simp [lookup_cons]
      · have hka : k ≠ a := by
          rintro rfl
          exact (List.nodup_cons.mp hnd).1 (by simpa [keysOf] using List.mem_map_of_mem Prod.fst h)
        simp [lookup_cons, hka, ih h (List.nodup_cons.mp hnd).2]

theorem mem_of_lookup_eq_some {κ β : Type*} [DecidableEq κ]
    {m : List (κ × β)} {k : κ} {v : β} (h : m.lookup k = some v) : (k, v) ∈ m := by
  induction m with
  | nil => simp [List.lookup] at h
  | cons p rest ih =>
      obtain ⟨a, b⟩ := p
      by_cases hka : k = a
      · subst hka
        simp [lookup_cons] at h
        simp [h]
      · simp [lookup_cons, hka] at h
        exact List.mem_cons_of_mem _ (ih h)

/-! ## Sequencing of fallible steps (a Python loop that can raise) -/

/-- Run `f` on every element of the list in order; the first `none`
(a raised exception in the source) aborts the whole computation. -/
def optMapList {α β : Type*} (f : α → Option β) : List α → Option (List β)
  | [] => some []
  | a :: l =>
      match f a, optMapList f l with
      | some b, some l' => some (b :: l')
      | _, _ => none

theorem optMapList_eq_map {α β : Type*} (f : α → Option β) (g : α → β) (l : List α)
    (h : ∀ a ∈ l, f a = some (g a)) : optMapList f l = some (l.map g) := by
  induction l with
  | nil => rfl
  | cons a l ih =>
      have ha := h a (by simp)
      have hl := ih fun x hx => h x (by simp [hx])
      simp [optMapList, ha, hl]

/-! ## Tokenizer (`preprocess_text`, ir.py lines 54-76) -/

/-- ASCII case folding of `str.lower()`; the corpora considered here are
ASCII, and non-letters are discarded by the run extraction anyway. -/
def lowerChar (c : Char) : Char :=
  if 'A' ≤ c ∧ c ≤ 'Z' then Char.ofNat (c.toNat + 32) else c

/-- Is the character a lowercase ASCII letter (the class `[a-z]`)? -/
def isAZ (c : Char) : Bool := 'a' ≤ c && c ≤ 'z'

/-- Maximal runs of `[a-z]` characters, as in `re.findall(r'[a-z]+', text)`.
The second argument accumulates the current (reversed) run. -/
def azRuns : List Char → List Char → List (List Char)
  | [], cur => if cur = [] then [] else [cur.reverse]
  | c :: rest, cur =>
      if isAZ c then azRuns rest (c :: cur)
      else if cur = [] then azRuns rest [] else cur.reverse :: azRuns rest []

/-- The stopword set of `preprocess_text`, transcribed verbatim. -/
def stopwords : List String :=
  ["the", "a", "an", "and", "or", "but", "in", "on", "at", "to", "for",
   "of", "with", "by", "from", "is", "are", "was", "were", "been", "be",
   "have", "has", "had", "do", "does", "did", "will", "would", "should",
   "could", "may", "might", "must", "shall", "can", "this", "that", "these",
   "those", "i", "you", "he", "she", "it", "we", "they", "them", "their",
   "what", "which", "who", "when", "where", "why", "how", "all", "each",
   "every", "some", "any", "many", "much", "most", "other", "another",
   "such", "no", "not", "only", "own", "same", "so", "than", "too",
   "very", "s", "t", "just", "now", "here", "there", "also", "as"]

/-- `preprocess_text`: lowercase, extract `[a-z]+` runs, keep words that are
not stopwords and have length > 2.  Duplicates are preserved. -/
def preprocess_text (text : String) : List String :=
  ((azRuns (text.data.map lowerChar) []).map fun cs => String.mk cs).filter
    fun w => !(stopwords.contains w) && decide (2 < w.length)

/-- Distinct elements of a list keeping first occurrences, in order: the
iteration order of the keys of a Python counting dict built over the list. -/
def dedupF : List String → List String
  | [] => []
  | x :: xs => x :: (dedupF xs).filter fun y => y ≠ x

theorem mem_dedupF {l : List String} {a : String} : a ∈ dedupF l ↔ a ∈ l := by
  induction l with
  | nil => simp [dedupF]
  | cons x xs ih =>
      by_cases hax : a = x
      · subst hax; simp [dedupF]
      · simp [dedupF, List.mem_filter, hax, ih]

theorem nodup_dedupF (l : List String) : (dedupF l).Nodup := by
  induction l with
  | nil => simp [dedupF]
  | cons x xs ih =>
      refine List.nodup_cons.mpr ⟨fun h => ?_, List.Nodup.filter _ ih⟩
      exact absurd (List.mem_filter.mp h).2 (by simp)

theorem dedupF_perm_dedup (l : List String) : (dedupF l).Perm l.dedup := by
  refine (List.perm_ext_iff_of_nodup (nodup_dedupF l) l.nodup_dedup).mpr fun a => ?_
  rw [mem_dedupF, List.mem_dedup]

/-- The distinct terms of a document's content, in first-occurrence order:
the keys of the `word_count` dict of `build_inverted_index`. -/
def termsOf (content : String) : List String := dedupF (preprocess_text content)

/-! ## Data model -/

/-- One metadata record (`self.metadata[doc_id]`). -/
structure Meta where
  title : String
  filename : String
  url : String
  date : String
deriving DecidableEq, Repr

/-- The mutable state of an `InformationRetrievalSystem` instance. -/
structure Engine where
  documents : List (Nat × String)
  metadata : List (Nat × Meta)
  inverted_index : List (String × List (Nat × ℝ))
  idf_values : List (String × ℝ)
  doc_vectors : List (Nat × List (String × ℝ))
  doc_lengths : List (Nat × ℝ)
  bigN : Nat

/-- A freshly constructed engine (`__init__`): every structure empty. -/
def emptyEngine : Engine := ⟨[], [], [], [], [], [], 0⟩

/-- One element of the list returned by `search`. -/
structure SearchResult where
  doc_id : Nat
  score : ℝ
  title : String
  summary : String
  url : String
  date : String

/-- One row of the pure corpus input of a build: document id, metadata and
the content of the file `metadata.filename`. -/
structure CorpusRow where
  id : Nat
  meta : Meta
  content : String

/-! ## Spec-level corpus functions (the clean fresh-build semantics, proved
below to characterize the stateful build from an empty engine) -/

/-- The documents dict built by loading `corpus` on a fresh engine. -/
def docsOf (corpus : List CorpusRow) : List (Nat × String) :=
  corpus.foldl (fun m r => dictSet m r.id r.content) []

/-- The metadata dict built by loading `corpus` on a fresh engine. -/
def metaOf (corpus : List CorpusRow) : List (Nat × Meta) :=
  corpus.foldl (fun m r => dictSet m r.id r.meta) []

/-- Normalized term frequency: raw count divided by the document's total
token count (`count / len(words)`). -/
noncomputable def tfVal (content : String) (t : String) : ℝ :=
  ((preprocess_text content).count t : ℝ) / ((preprocess_text content).length : ℝ)

/-- Document frequency of a term: how many loaded documents contain it. -/
def dfN (D : List (Nat × String)) (t : String) : Nat :=
  (D.filter fun p => decide (t ∈ termsOf p.2)).length

/-- Inverse document frequency `math.log(self.N / df)`. -/
noncomputable def idfVal (D : List (Nat × String)) (t : String) : ℝ :=
  Real.log ((D.length : ℝ) / (dfN D t : ℝ))

/-- The posting list of a term in a clean build: one `(doc_id, tf)` pair per
document containing the term, in document order. -/
noncomputable def postingsOf (D : List (Nat × String)) (t : String) : List (Nat × ℝ) :=
  D.filterMap fun p => if t ∈ termsOf p.2 then some (p.1, tfVal p.2 t) else none

/-- TF-IDF weight of a term in a document. -/
noncomputable def wVal (D : List (Nat × String)) (content t : String) : ℝ :=
  tfVal content t * idfVal D t

/-- Euclidean norm of a document's TF-IDF vector. -/
noncomputable def normVal (D : List (Nat × String)) (content : String) : ℝ :=
  Real.sqrt (((termsOf content).map fun t => wVal D content t ^ 2).sum)

/-! ## Engine operations (ir.py, class `InformationRetrievalSystem`) -/

/-- `load_documents` in its pure form: fold the corpus rows into the
metadata dict, then the documents dict, then set `self.N`.  The source
iterates the metadata dict and re-reads each row's file; under a static
file system (one content per id) that equals folding the rows directly,
and prior entries of either dict are not cleared. -/
def loadCorpus (e : Engine) (corpus : List CorpusRow) : Engine :=
  let md := corpus.foldl (fun m r => dictSet m r.id r.meta) e.metadata
  let docs := corpus.foldl (fun m r => dictSet m r.id r.content) e.documents
  { e with metadata := md, documents := docs, bigN := docs.length }

/-- `build_inverted_index` (lines 78-100): for each document of the
documents dict, append one posting per distinct term (in first-occurrence
order, the iteration order of `word_count`) to the `defaultdict(list)`
`self.inverted_index`; then recompute `self.idf_values[term]` for every
term of the resulting index with `math.log(self.N / df)`.  Nothing is
cleared first. -/
noncomputable def build_inverted_index (e : Engine) : Engine :=
  let inv := e.documents.foldl
    (fun m p => (termsOf p.2).foldl (fun m' t => ddAppend m' t (p.1, tfVal p.2 t)) m)
    e.inverted_index
  let idfs := inv.foldl
    (fun m q => dictSet m q.1 (Real.log ((e.bigN : ℝ) / (q.2.length : ℝ)))) e.idf_values
  { e with inverted_index := inv, idf_values := idfs }

/-- The TF-IDF vector dict `self.doc_vectors[doc_id]` assembled by
`compute_document_vectors`: scan every posting list of the inverted index
and pick up the entries of document `d`.  `idfs.lookup q.1` cannot miss
when this runs, since `build_inverted_index` has just set an idf for every
key of the inverted index (the `.getD 0` default is never exercised). -/
noncomputable def docVectorFor (inv : List (String × List (Nat × ℝ)))
    (idfs : List (String × ℝ)) (d : Nat) : List (String × ℝ) :=
  inv.foldl (fun acc q => q.2.foldl
    (fun acc' pr =>
      if pr.1 = d then dictSet acc' q.1 (pr.2 * (idfs.lookup q.1).getD 0) else acc')
    acc) []

/-- `compute_document_vectors` (lines 102-120): for each document, assign
its fresh TF-IDF vector dict and its Euclidean length.  The single source
loop assigns into the two independent dicts; two folds give the same
result. -/
noncomputable def compute_document_vectors (e : Engine) : Engine :=
  let vecs := e.documents.foldl
    (fun m p => dictSet m p.1 (docVectorFor e.inverted_index e.idf_values p.1)) e.doc_vectors
  let lens := e.documents.foldl
    (fun m p => dictSet m p.1
      (Real.sqrt (((docVectorFor e.inverted_index e.idf_values p.1).map fun q => q.2 ^ 2).sum)))
    e.doc_lengths
  { e with doc_vectors := vecs, doc_lengths := lens }

/-- `build_index` (lines 217-222) without the final `save_index` call:
load, build the inverted index, compute the vectors.  Persistence is
modelled separately below. -/
noncomputable def build_index (e : Engine) (corpus : List CorpusRow) : Engine :=
  compute_document_vectors (build_inverted_index (loadCorpus e corpus))

/-- A full build on a freshly constructed engine. -/
noncomputable def buildFrom (corpus : List CorpusRow) : Engine :=
  build_index emptyEngine corpus

/-! ## Index persistence (`save_index` / `load_index`, lines 122-145) -/

/-- The pickled payload of `save_index`: exactly the five structures.
`pickle` round-trips every value bit-for-bit, and rewrapping the loaded
inverted index in `defaultdict(list, ...)` changes no lookup. -/
structure IndexBlob where
  inverted_index : List (String × List (Nat × ℝ))
  idf_values : List (String × ℝ)
  doc_vectors : List (Nat × List (String × ℝ))
  doc_lengths : List (Nat × ℝ)
  bigN : Nat

/-- `save_index`: serialize the five index structures. -/
def save_index (e : Engine) : IndexBlob :=
  ⟨e.inverted_index, e.idf_values, e.doc_vectors, e.doc_lengths, e.bigN⟩

/-- `load_index`: restore the five index structures into the engine.  The
documents and metadata dicts are NOT part of the blob and keep whatever
the engine currently holds. -/
def load_index (e : Engine) (b : IndexBlob) : Engine :=
  { e with inverted_index := b.inverted_index, idf_values := b.idf_values,
           doc_vectors := b.doc_vectors, doc_lengths := b.doc_lengths, bigN := b.bigN }

/-! ## Snippet construction (`search`, lines 190-204) -/

/-- Sentence-terminating punctuation class of `re.split(r'[.!?]', content)`. -/
def isSentTerm (c : Char) : Bool := c = '.' || c = '!' || c = '?'

/-- The split of `re.split(r'[.!?]', content)`: every terminator starts a
new (possibly empty) segment; a text without terminators is one segment. -/
def splitSent : List Char → List (List Char)
  | [] => [[]]
  | c :: rest =>
      if isSentTerm c then [] :: splitSent rest
      else
        match splitSent rest with
        | s :: ss => (c :: s) :: ss
        | [] => [[c]]

/-- Substring containment, Python's `term in sentence`. -/
def isInfixStr (needle hay : List Char) : Bool :=
  hay.tails.any fun t2 => needle.isPrefixOf t2

/-- Whitespace stripped by Python's `str.strip()` (the corpora here use at
most blanks, tabs and newlines). -/
def isSpaceChar (c : Char) : Bool := c = ' ' || c = '\t' || c = '\n' || c = '\r'

/-- Python `str.strip()`. -/
def stripStr (s : List Char) : List Char :=
  ((s.dropWhile isSpaceChar).reverse.dropWhile isSpaceChar).reverse

/-- The summary of one search result: split the content on `[.!?]`, keep
the sentences whose lowercase form contains some query term (appending
each stripped), then join the first 3 with `'. '` and append a final `'.'`;
an empty match list gives the empty string. -/
def summaryOf (query_terms : List String) (content : String) : String :=
  let sentences := splitSent content.data
  let matching := (sentences.filter fun s =>
      query_terms.any fun t => isInfixStr t.data (s.map lowerChar)).map
    fun s => String.mk (stripStr s)
  if matching = [] then "" else String.intercalate ". " (matching.take 3) ++ "."

/-! ## Ranking (`sorted(scores.items(), key=lambda x: x[1], reverse=True)`) -/

/-- Insert `x` into a descending-sorted list after every element whose
score is at least `x`'s: the position a stable descending sort gives. -/
noncomputable def insDesc : List (Nat × ℝ) → (Nat × ℝ) → List (Nat × ℝ)
  | [], x => [x]
  | y :: ys, x => if y.2 < x.2 then x :: y :: ys else y :: insDesc ys x

/-- Stable descending sort by score, Python's
`sorted(..., key=lambda x: x[1], reverse=True)`. -/
noncomputable def sortDesc (l : List (Nat × ℝ)) : List (Nat × ℝ) := l.foldl insDesc []

/-! ## Query evaluation (`search`, lines 147-215) -/

/-- The query vector dict: for each distinct query term present in
`self.idf_values`, its normalized frequency in the query times its idf. -/
noncomputable def queryVector (e : Engine) (query_terms : List String) : List (String × ℝ) :=
  (dedupF query_terms).filterMap fun t =>
    (e.idf_values.lookup t).map fun idf =>
      (t, ((query_terms.count t : ℝ) / (query_terms.length : ℝ)) * idf)

/-- Euclidean norm of the query vector. -/
noncomputable def queryNorm (qv : List (String × ℝ)) : ℝ :=
  Real.sqrt ((qv.map fun p => p.2 ^ 2).sum)

/-- The cosine score of one document (lines 173-181): dot product of the
query vector with the document's stored vector, divided by the norm
product when both norms are positive.  The two dict indexings can raise
`KeyError` in Python, hence the `Option`. -/
noncomputable def scoreOf (e : Engine) (qv : List (String × ℝ)) (ql : ℝ) (d : Nat) :
    Option ℝ := do
  let dv ← e.doc_vectors.lookup d
  let dl ← e.doc_lengths.lookup d
  let raw := (qv.map fun p =>
    match dv.lookup p.1 with
    | some wd => p.2 * wd
    | none => 0).sum
  pure (if 0 < dl ∧ 0 < ql then raw / (dl * ql) else raw)

/-- Assemble one result dict (lines 206-213); the `self.documents` and
`self.metadata` indexings can raise `KeyError` in Python. -/
noncomputable def resultFor (e : Engine) (query_terms : List String) (p : Nat × ℝ) :
    Option SearchResult := do
  let content ← e.documents.lookup p.1
  let mt ← e.metadata.lookup p.1
  pure ⟨p.1, p.2, mt.title, summaryOf query_terms content, mt.url, mt.date⟩

/-- `search` (lines 147-215).  `none` models a raised exception; a normal
return is `some results`. -/
noncomputable def search (e : Engine) (query : String) (top_k : Nat) :
    Option (List SearchResult) :=
  let query_terms := preprocess_text query
  if query_terms = [] then some [] else
  let qv := queryVector e query_terms
  if qv = [] then some [] else
  let ql := queryNorm qv
  do
    let scored ← optMapList (fun p => (scoreOf e qv ql p.1).map fun s => (p.1, s)) e.documents
    let scores := scored.filter fun p => decide (0 < p.2)
    let sorted_results := (sortDesc scores).take top_k
    optMapList (resultFor e query_terms) sorted_results

/-! ## The corpus loader with its exception behavior
(`load_documents`, lines 22-52) -/

/-- One row of the parsed metadata CSV.  `id = none` models a row whose
`id` column is missing (`row['id']` raises `KeyError`). -/
structure CsvRow where
  id : Option String
  title : String
  url : String
  date : String
  filename : String

/-- The Python exceptions the loader can raise. -/
inductive PyErr
  | keyError
  | valueError
  | fileNotFound
deriving DecidableEq, Repr

/-- Left fold over a list of fallible steps; the first `.error` (a raised
exception) aborts the loop. -/
def exceptFold {α σ ε : Type*} (f : σ → α → Except ε σ) : σ → List α → Except ε σ
  | s, [] => .ok s
  | s, a :: l =>
      match f s a with
      | .ok s' => exceptFold f s' l
      | .error err => .error err

/-- `int(...)` on the canonical non-negative decimal strings used by the
metadata CSV: every character a digit (and at least one), read in base 10;
anything else raises `ValueError` (modelled as `none`). -/
def parsePyNat (s : String) : Option Nat :=
  if s.data ≠ [] ∧ s.data.all Char.isDigit then
    some (s.data.foldl (fun n c => 10 * n + (c.toNat - 48)) 0)
  else none

/-- Process one metadata row: `doc_id = int(row['id'])` raises `KeyError`
on a missing column and `ValueError` on an unparsable value, then assign
`self.metadata[doc_id]`. -/
def metadataRowStep (md : List (Nat × Meta)) (r : CsvRow) : Except PyErr (List (Nat × Meta)) :=
  match r.id with
  | none => .error .keyError
  | some s =>
      match parsePyNat s with
      | none => .error .valueError
      | some n => .ok (dictSet md n ⟨r.title, r.filename, r.url, r.date⟩)

/-- Read one document's file: `open(filepath)` raises `FileNotFoundError`
when the referenced file is absent. -/
def contentStep (fs : List (String × String)) (docs : List (Nat × String))
    (p : Nat × Meta) : Except PyErr (List (Nat × String)) :=
  match fs.lookup p.2.filename with
  | some c => .ok (dictSet docs p.1 c)
  | none => .error .fileNotFound

/-- `load_documents` on a fresh engine, against the file system `fs`
(`filename ↦ content`): first fold every CSV row into the metadata dict,
then read one file per metadata entry into the documents dict, then set
`self.N = len(self.documents)`.  Any raised exception propagates; there is
no row skipping and no emptiness check. -/
def load_documents (rows : List CsvRow) (fs : List (String × String)) :
    Except PyErr (List (Nat × Meta) × List (Nat × String) × Nat) := do
  let md ← exceptFold metadataRowStep [] rows
  let docs ← exceptFold (contentStep fs) [] md
  .ok (md, docs, docs.length)

/-! ## General lemmas about the dict folds of the build -/

theorem dictSet_eq_append_of_not_mem {κ β : Type*} [DecidableEq κ] {m : List (κ × β)} {k : κ}
    (v : β) (h : k ∉ keysOf m) : dictSet m k v = m ++ [(k, v)] := by
  induction m with
  | nil => rfl
  | cons p rest ih =>
      obtain ⟨a, b⟩ := p
      obtain ⟨h1, h2⟩ : ¬k = a ∧ k ∉ keysOf rest := by
        simpa [keysOf_cons, not_or] using h
      have hak : ¬a = k := fun hh => h1 hh.symm
      simp [dictSet, hak, ih h2]

theorem keysOf_append {κ β : Type*} (l₁ l₂ : List (κ × β)) :
    keysOf (l₁ ++ l₂) = keysOf l₁ ++ keysOf l₂ := by
  simp [keysOf]

theorem nodup_keysOf_foldl_dictSet {κ β γ : Type*} [DecidableEq κ] (f : γ → κ) (g : γ → β)
    (L : List γ) : ∀ m0 : List (κ × β), (keysOf m0).Nodup →
    (keysOf (L.foldl (fun m r => dictSet m (f r) (g r)) m0)).Nodup := by
  induction L with
  | nil => intro m0 h0; simpa using h0
  | cons r rest ih =>
      intro m0 h0
      exact ih _ (nodup_keysOf_dictSet _ _ _ h0)

theorem lookup_none_of_not_mem_keysOf {κ β : Type*} [DecidableEq κ] {m : List (κ × β)} {k : κ}
    (h : k ∉ keysOf m) : m.lookup k = none := by
  cases hl : m.lookup k with
  | none => rfl
  | some v =>
      exact absurd ((lookup_isSome_iff_mem_keysOf m k).mp (by simp [hl])) h

/-- Effect on one key of writing one document's postings into the inverted
index (the inner loop of `build_inverted_index`). -/
theorem lookup_termsFold (d : Nat) (f : String → ℝ) (ts : List String) :
    ∀ (m : List (String × List (Nat × ℝ))) (t : String), ts.Nodup →
    (ts.foldl (fun m' t' => ddAppend m' t' (d, f t')) m).lookup t =
      if t ∈ ts then some ((m.lookup t).getD [] ++ [(d, f t)]) else m.lookup t := by
  induction ts with
  | nil => intro m t _; simp
  | cons t0 ts ih =>
      intro m t hts
      obtain ⟨h0, hnd⟩ := List.nodup_cons.mp hts
      rw [List.foldl_cons, ih _ t hnd]
      by_cases htts : t ∈ ts
      · have hne : ¬t = t0 := fun hh => h0 (hh ▸ htts)
        simp [htts, lookup_ddAppend, hne]
      · by_cases ht0 : t = t0
        · subst ht0; simp [htts, lookup_ddAppend]
        · simp [htts, ht0, lookup_ddAppend]

/-- Effect on one key of the whole posting-appending loop of
`build_inverted_index` over a documents dict `DD`. -/
theorem lookup_invFold (DD : List (Nat × String)) :
    ∀ (m : List (String × List (Nat × ℝ))) (t : String),
    (DD.foldl (fun m p => (termsOf p.2).foldl
        (fun m' t' => ddAppend m' t' (p.1, tfVal p.2 t')) m) m).lookup t =
      if postingsOf DD t = [] then m.lookup t
      else some ((m.lookup t).getD [] ++ postingsOf DD t) := by
  induction DD with
  | nil => intro m t; simp [postingsOf]
  | cons p rest ih =>
      intro m t
      obtain ⟨d, c⟩ := p
      rw [List.foldl_cons, ih]
      have hinner := lookup_termsFold d (tfVal c) (termsOf c) m t (nodup_dedupF _)
      by_cases hct : t ∈ termsOf c
      · have hpost : postingsOf ((d, c) :: rest) t = (d, tfVal c t) :: postingsOf rest t := by
          simp [postingsOf, List.filterMap_cons, hct]
        by_cases hrest : postingsOf rest t = []
        · simp [hrest, hpost, hinner, hct]
        · simp [hrest, hpost, hinner, hct]
      · have hpost : postingsOf ((d, c) :: rest) t = postingsOf rest t := by
          simp [postingsOf, List.filterMap_cons, hct]
        by_cases hrest : postingsOf rest t = []
        · simp [hrest, hpost, hinner, hct]
        · simp [hrest, hpost, hinner, hct]

/-- Keys produced by the posting-appending loops are without duplicates. -/
theorem nodup_keysOf_invFold (DD : List (Nat × String)) :
    ∀ m : List (String × List (Nat × ℝ)), (keysOf m).Nodup →
    (keysOf (DD.foldl (fun m p => (termsOf p.2).foldl
        (fun m' t' => ddAppend m' t' (p.1, tfVal p.2 t')) m) m)).Nodup := by
  induction DD with
  | nil => intro m h; simpa using h
  | cons p rest ih =>
      intro m h
      rw [List.foldl_cons]
      refine ih _ ?_
      have : ∀ (ts : List String) (m : List (String × List (Nat × ℝ))), (keysOf m).Nodup →
          (keysOf (ts.foldl (fun m' t' => ddAppend m' t' (p.1, tfVal p.2 t')) m)).Nodup := by
        intro ts
        induction ts with
        | nil => intro m h; simpa using h
        | cons t0 ts ih2 => intro m h; exact ih2 _ (nodup_keysOf_ddAppend _ _ _ h)
      exact this _ m h

/-- Effect on one key of a fold writing `f k v` for each entry `(k, v)` of a
key-distinct association list (the idf loop, the vector loop and the
norm loop). -/
theorem lookup_foldl_dictSet_map {κ β γ : Type*} [DecidableEq κ] (f : κ → β → γ)
    (L : List (κ × β)) : ∀ (m0 : List (κ × γ)) (k : κ), (keysOf L).Nodup →
    (L.foldl (fun m q => dictSet m q.1 (f q.1 q.2)) m0).lookup k =
      (L.lookup k).elim (m0.lookup k) (fun v => some (f k v)) := by
  induction L with
  | nil => intro m0 k _; simp
  | cons q rest ih =>
      intro m0 k hnd
      obtain ⟨a, b⟩ := q
      rw [List.foldl_cons, ih _ k (List.nodup_cons.mp hnd).2]
      by_cases hk : k = a
      · subst hk
        rw [keysOf_cons] at hnd
        have hrest : rest.lookup k = none :=
          lookup_none_of_not_mem_keysOf (List.nodup_cons.mp hnd).1
        simp [hrest, lookup_cons, lookup_dictSet]
      · cases hkk : rest.lookup k <;> simp [hkk, lookup_cons, hk, lookup_dictSet]

/-- The scan of one posting list inside `compute_document_vectors`: with
key-distinct postings it assigns at most once. -/
theorem psFold_eq (d : Nat) (t : String) (w : ℝ) (ps : List (Nat × ℝ)) :
    ∀ acc : List (String × ℝ), (keysOf ps).Nodup →
    ps.foldl (fun acc' pr => if pr.1 = d then dictSet acc' t (pr.2 * w) else acc') acc =
      (ps.lookup d).elim acc (fun tf => dictSet acc t (tf * w)) := by
  induction ps with
  | nil => intro acc _; simp
  | cons pr rest ih =>
      intro acc hnd
      obtain ⟨d', tf⟩ := pr
      rw [keysOf_cons] at hnd
      obtain ⟨hd0, hndr⟩ := List.nodup_cons.mp hnd
      by_cases hd : d' = d
      · subst hd
        have hrest : rest.lookup d' = none := lookup_none_of_not_mem_keysOf hd0
        rw [List.foldl_cons]
        simp only [if_pos rfl]
        rw [ih _ hndr, hrest, lookup_cons]
        simp
      · have hdd : ¬d = d' := fun hh => hd hh.symm
        rw [List.foldl_cons]
        simp only [hd, if_false]
        rw [ih _ hndr, lookup_cons]
        simp [hdd]

/-- The document-vector dict assembled by `compute_document_vectors` is, for
a key-distinct inverted index with key-distinct posting lists, the scan of
the index entries keeping those that carry a posting for `d`. -/
theorem docVectorFor_eq_filterMap (idfs : List (String × ℝ)) (d : Nat)
    (inv : List (String × List (Nat × ℝ))) :
    ∀ acc : List (String × ℝ), (keysOf inv).Nodup →
    (∀ q ∈ inv, (keysOf q.2).Nodup) → (∀ k ∈ keysOf inv, k ∉ keysOf acc) →
    inv.foldl (fun acc q => q.2.foldl
      (fun acc' pr =>
        if pr.1 = d then dictSet acc' q.1 (pr.2 * (idfs.lookup q.1).getD 0) else acc')
      acc) acc =
      acc ++ inv.filterMap fun q =>
        (q.2.lookup d).map fun tf => (q.1, tf * (idfs.lookup q.1).getD 0) := by
  induction inv with
  | nil => intro acc _ _ _; simp
  | cons q rest ih =>
      intro acc hnd hps hdisj
      obtain ⟨t, ps⟩ := q
      rw [keysOf_cons] at hnd
      obtain ⟨ht0, hndr⟩ := List.nodup_cons.mp hnd
      rw [List.foldl_cons, psFold_eq d t _ ps acc (hps (t, ps) (by simp))]
      cases hpd : ps.lookup d with
      | none =>
          rw [Option.elim_none,
            ih acc hndr (fun q hq => hps q (by simp [hq]))
              (fun k hk => hdisj k (by simp [keysOf_cons, hk]))]
          simp [List.filterMap_cons, hpd]
      | some tf =>
          have hta : t ∉ keysOf acc := hdisj t (by simp [keysOf_cons])
          rw [Option.elim_some, dictSet_eq_append_of_not_mem _ hta]
          rw [ih (acc ++ [(t, tf * (idfs.lookup t).getD 0)]) hndr
            (fun q hq => hps q (by simp [hq]))
            (fun k hk => by
              rw [keysOf_append]
              simp only [List.mem_append]
              rintro (hka | hkt)
              · exact hdisj k (by simp [keysOf_cons, hk]) hka
              · have : k = t := by simpa [keysOf] using hkt
                exact ht0 (this ▸ hk))]
          simp [List.filterMap_cons, hpd]

/-! ## Characterization of a fresh build -/

theorem buildFrom_documents (corpus : List CorpusRow) :
    (buildFrom corpus).documents = docsOf corpus := rfl

theorem buildFrom_metadata (corpus : List CorpusRow) :
    (buildFrom corpus).metadata = metaOf corpus := rfl

theorem buildFrom_bigN (corpus : List CorpusRow) :
    (buildFrom corpus).bigN = (docsOf corpus).length := rfl

theorem buildFrom_inv (corpus : List CorpusRow) :
    (buildFrom corpus).inverted_index = (docsOf corpus).foldl
      (fun m p => (termsOf p.2).foldl (fun m' t' => ddAppend m' t' (p.1, tfVal p.2 t')) m)
      [] := rfl

theorem buildFrom_idf (corpus : List CorpusRow) :
    (buildFrom corpus).idf_values = (buildFrom corpus).inverted_index.foldl
      (fun m q => dictSet m q.1
        (Real.log (((docsOf corpus).length : ℝ) / (q.2.length : ℝ)))) [] := rfl

theorem buildFrom_doc_vectors (corpus : List CorpusRow) :
    (buildFrom corpus).doc_vectors = (docsOf corpus).foldl
      (fun m p => dictSet m p.1
        (docVectorFor (buildFrom corpus).inverted_index (buildFrom corpus).idf_values p.1))
      [] := rfl

theorem buildFrom_doc_lengths (corpus : List CorpusRow) :
    (buildFrom corpus).doc_lengths = (docsOf corpus).foldl
      (fun m p => dictSet m p.1
        (Real.sqrt (((docVectorFor (buildFrom corpus).inverted_index
          (buildFrom corpus).idf_values p.1).map fun q => q.2 ^ 2).sum)))
      [] := rfl

theorem nodup_keysOf_docsOf (corpus : List CorpusRow) : (keysOf (docsOf corpus)).Nodup :=
  nodup_keysOf_foldl_dictSet (fun r : CorpusRow => r.id) (fun r : CorpusRow => r.content)
    corpus [] (by simp [keysOf_nil])

theorem nodup_keysOf_metaOf (corpus : List CorpusRow) : (keysOf (metaOf corpus)).Nodup :=
  nodup_keysOf_foldl_dictSet (fun r : CorpusRow => r.id) (fun r : CorpusRow => r.meta)
    corpus [] (by simp [keysOf_nil])

theorem keysOf_foldl_dictSet_congr {κ β β' γ : Type*} [DecidableEq κ] (f : γ → κ)
    (g1 : γ → β) (g2 : γ → β') (L : List γ) :
    ∀ (m1 : List (κ × β)) (m2 : List (κ × β')), keysOf m1 = keysOf m2 →
    keysOf (L.foldl (fun m r => dictSet m (f r) (g1 r)) m1) =
      keysOf (L.foldl (fun m r => dictSet m (f r) (g2 r)) m2) := by
  induction L with
  | nil => intro m1 m2 h; simpa using h
  | cons r rest ih =>
      intro m1 m2 h
      exact ih _ _ (by rw [keysOf_dictSet, keysOf_dictSet, h])

theorem keysOf_metaOf_eq (corpus : List CorpusRow) :
    keysOf (metaOf corpus) = keysOf (docsOf corpus) :=
  keysOf_foldl_dictSet_congr (fun r : CorpusRow => r.id) (fun r : CorpusRow => r.meta)
    (fun r : CorpusRow => r.content) corpus [] [] rfl

theorem nodup_keysOf_buildFrom_inv (corpus : List CorpusRow) :
    (keysOf (buildFrom corpus).inverted_index).Nodup := by
  rw [buildFrom_inv]
  exact nodup_keysOf_invFold _ [] (by simp [keysOf_nil])

theorem length_postingsOf (D : List (Nat × String)) (t : String) :
    (postingsOf D t).length = dfN D t := by
  induction D with
  | nil => simp [postingsOf, dfN]
  | cons p rest ih =>
      by_cases h : t ∈ termsOf p.2 <;>
        simp [postingsOf, dfN, List.filterMap_cons, List.filter_cons, h] at ih ⊢ <;>
        simpa [postingsOf, dfN] using ih

theorem postingsOf_eq_nil_iff (D : List (Nat × String)) (t : String) :
    postingsOf D t = [] ↔ dfN D t = 0 := by
  rw [← length_postingsOf, List.length_eq_zero]

theorem dfN_le_length (D : List (Nat × String)) (t : String) : dfN D t ≤ D.length :=
  List.length_filter_le _ D

theorem buildFrom_inv_lookup (corpus : List CorpusRow) (t : String) :
    (buildFrom corpus).inverted_index.lookup t =
      if postingsOf (docsOf corpus) t = [] then none
      else some (postingsOf (docsOf corpus) t) := by
  rw [buildFrom_inv]
  have h := lookup_invFold (docsOf corpus) [] t
  by_cases hp : postingsOf (docsOf corpus) t = [] <;> simpa [hp] using h

theorem buildFrom_idf_lookup (corpus : List CorpusRow) (t : String) :
    (buildFrom corpus).idf_values.lookup t =
      if dfN (docsOf corpus) t = 0 then none else some (idfVal (docsOf corpus) t) := by
  rw [buildFrom_idf,
    lookup_foldl_dictSet_map
      (fun _ ps => Real.log (((docsOf corpus).length : ℝ) / (ps.length : ℝ)))
      (buildFrom corpus).inverted_index [] t (nodup_keysOf_buildFrom_inv corpus),
    buildFrom_inv_lookup]
  by_cases hdf : dfN (docsOf corpus) t = 0
  · simp [(postingsOf_eq_nil_iff _ _).mpr hdf, hdf]
  · have hne : ¬postingsOf (docsOf corpus) t = [] := fun hh =>
      hdf ((postingsOf_eq_nil_iff _ _).mp hh)
    simp [hne, hdf, idfVal, length_postingsOf]

theorem keysOf_postingsOf_sublist (D : List (Nat × String)) (t : String) :
    (keysOf (postingsOf D t)).Sublist (keysOf D) := by
  induction D with
  | nil => simp [postingsOf, keysOf_nil]
  | cons p rest ih =>
      by_cases h : t ∈ termsOf p.2
      · simpa [postingsOf, List.filterMap_cons, h, keysOf_cons] using ih.cons₂ p.1
      · simpa [postingsOf, List.filterMap_cons, h, keysOf_cons] using ih.cons p.1

theorem nodup_keysOf_postingsOf (D : List (Nat × String)) (t : String)
    (h : (keysOf D).Nodup) : (keysOf (postingsOf D t)).Nodup :=
  (keysOf_postingsOf_sublist D t).nodup h

theorem lookup_postingsOf (t : String) (D : List (Nat × String)) :
    ∀ {d : Nat} {c : String}, (keysOf D).Nodup → D.lookup d = some c →
    (postingsOf D t).lookup d = if t ∈ termsOf c then some (tfVal c t) else none := by
  induction D with
  | nil => intro d c _ hd; simp [List.lookup] at hd
  | cons p rest ih =>
      intro d c hnd hd
      obtain ⟨d0, c0⟩ := p
      rw [keysOf_cons] at hnd
      obtain ⟨h0, hndr⟩ := List.nodup_cons.mp hnd
      rw [lookup_cons] at hd
      by_cases hdd : d = d0
      · subst hdd
        rw [if_pos rfl] at hd
        obtain rfl : c0 = c := Option.some.inj hd
        by_cases hct : t ∈ termsOf c0
        · simp [postingsOf, List.filterMap_cons, hct, lookup_cons]
        · have hskip : postingsOf ((d, c0) :: rest) t = postingsOf rest t := by
            simp [postingsOf, List.filterMap_cons, hct]
          have hnone : (postingsOf rest t).lookup d = none :=
            lookup_none_of_not_mem_keysOf
              (fun hmem => h0 ((keysOf_postingsOf_sublist rest t).subset hmem))
          rw [hskip, hnone, if_neg hct]
      · rw [if_neg hdd] at hd
        by_cases hct : t ∈ termsOf c0
        · have hhead : postingsOf ((d0, c0) :: rest) t =
              (d0, tfVal c0 t) :: postingsOf rest t := by
            simp [postingsOf, List.filterMap_cons, hct]
          rw [hhead, lookup_cons, if_neg hdd, ih hndr hd]
        · have hskip : postingsOf ((d0, c0) :: rest) t = postingsOf rest t := by
            simp [postingsOf, List.filterMap_cons, hct]
          rw [hskip, ih hndr hd]

/-- The vector dict of document `d` in a fresh build, as a scan of the
built inverted index. -/
noncomputable def vecOf (corpus : List CorpusRow) (d : Nat) : List (String × ℝ) :=
  (buildFrom corpus).inverted_index.filterMap fun q =>
    (q.2.lookup d).map fun tf => (q.1, tf * ((buildFrom corpus).idf_values.lookup q.1).getD 0)

theorem buildFrom_inv_posting_nodup (corpus : List CorpusRow) :
    ∀ q ∈ (buildFrom corpus).inverted_index, (keysOf q.2).Nodup := by
  intro q hq
  have hl : (buildFrom corpus).inverted_index.lookup q.1 = some q.2 :=
    lookup_eq_some_of_mem_of_nodup hq (nodup_keysOf_buildFrom_inv corpus)
  rw [buildFrom_inv_lookup] at hl
  by_cases hp : postingsOf (docsOf corpus) q.1 = []
  · simp [hp] at hl
  · rw [if_neg hp] at hl
    have heq : postingsOf (docsOf corpus) q.1 = q.2 := Option.some.inj hl
    rw [← heq]
    exact nodup_keysOf_postingsOf _ _ (nodup_keysOf_docsOf corpus)

theorem buildFrom_doc_vectors_lookup (corpus : List CorpusRow) {d : Nat} {c : String}
    (hd : (docsOf corpus).lookup d = some c) :
    (buildFrom corpus).doc_vectors.lookup d = some (vecOf corpus d) := by
  rw [buildFrom_doc_vectors,
    lookup_foldl_dictSet_map
      (fun d' _ => docVectorFor (buildFrom corpus).inverted_index
        (buildFrom corpus).idf_values d')
      (docsOf corpus) [] d (nodup_keysOf_docsOf corpus),
    hd, Option.elim_some]
  have h := docVectorFor_eq_filterMap (buildFrom corpus).idf_values d
    (buildFrom corpus).inverted_index [] (nodup_keysOf_buildFrom_inv corpus)
    (buildFrom_inv_posting_nodup corpus) (by simp [keysOf_nil])
  rw [docVectorFor, h]
  simp [vecOf]

theorem nodup_keysOf_vecOf (corpus : List CorpusRow) (d : Nat) :
    (keysOf (vecOf corpus d)).Nodup := by
  have hsub : (keysOf (vecOf corpus d)).Sublist (keysOf (buildFrom corpus).inverted_index) := by
    rw [vecOf]
    generalize (buildFrom corpus).inverted_index = inv
    induction inv with
    | nil => simp [keysOf_nil]
    | cons q rest ih =>
        cases hq : q.2.lookup d with
        | none => simpa [List.filterMap_cons, hq, keysOf_cons] using ih.cons q.1
        | some tf => simpa [List.filterMap_cons, hq, keysOf_cons] using ih.cons₂ q.1
  exact hsub.nodup (nodup_keysOf_buildFrom_inv corpus)

theorem vecOf_lookup (corpus : List CorpusRow) {d : Nat} {c : String}
    (hd : (docsOf corpus).lookup d = some c) (t : String) :
    (vecOf corpus d).lookup t =
      if t ∈ termsOf c then some (wVal (docsOf corpus) c t) else none := by
  by_cases hct : t ∈ termsOf c
  · rw [if_pos hct]
    have hdc : (d, c) ∈ docsOf corpus := mem_of_lookup_eq_some hd
    have hmemp : (d, tfVal c t) ∈ postingsOf (docsOf corpus) t :=
      List.mem_filterMap.mpr ⟨(d, c), hdc, by simp [hct]⟩
    have hpne : postingsOf (docsOf corpus) t ≠ [] := by
      intro hh; rw [hh] at hmemp; simp at hmemp
    have hinv : (buildFrom corpus).inverted_index.lookup t =
        some (postingsOf (docsOf corpus) t) := by
      rw [buildFrom_inv_lookup, if_neg hpne]
    have hdf : dfN (docsOf corpus) t ≠ 0 := fun hh =>
      hpne ((postingsOf_eq_nil_iff _ _).mpr hh)
    have hidf : (buildFrom corpus).idf_values.lookup t = some (idfVal (docsOf corpus) t) := by
      rw [buildFrom_idf_lookup, if_neg hdf]
    have hlp : (postingsOf (docsOf corpus) t).lookup d = some (tfVal c t) := by
      rw [lookup_postingsOf t _ (nodup_keysOf_docsOf corpus) hd, if_pos hct]
    have hmemv : (t, wVal (docsOf corpus) c t) ∈ vecOf corpus d :=
      List.mem_filterMap.mpr ⟨(t, postingsOf (docsOf corpus) t),
        mem_of_lookup_eq_some hinv, by simp [hlp, hidf, wVal, mul_comm]⟩
    exact lookup_eq_some_of_mem_of_nodup hmemv (nodup_keysOf_vecOf corpus d)
  · rw [if_neg hct]
    cases hv : (vecOf corpus d).lookup t with
    | none => rfl
    | some w =>
        exfalso
        obtain ⟨q, hqmem, hqe⟩ := List.mem_filterMap.mp (mem_of_lookup_eq_some hv)
        cases hq2 : q.2.lookup d with
        | none => rw [hq2] at hqe; simp at hqe
        | some tf =>
            rw [hq2] at hqe
            simp only [Option.map_some'] at hqe
            have hqt : q.1 = t := congrArg Prod.fst (Option.some.inj hqe)
            have hlq : (buildFrom corpus).inverted_index.lookup q.1 = some q.2 :=
              lookup_eq_some_of_mem_of_nodup hqmem (nodup_keysOf_buildFrom_inv corpus)
            rw [buildFrom_inv_lookup] at hlq
            by_cases hp : postingsOf (docsOf corpus) q.1 = []
            · simp [hp] at hlq
            · rw [if_neg hp] at hlq
              have heq : postingsOf (docsOf corpus) q.1 = q.2 := Option.some.inj hlq
              rw [← heq, hqt,
                lookup_postingsOf t _ (nodup_keysOf_docsOf corpus) hd, if_neg hct] at hq2
              exact Option.noConfusion hq2

theorem docVectorFor_buildFrom (corpus : List CorpusRow) (d : Nat) :
    docVectorFor (buildFrom corpus).inverted_index (buildFrom corpus).idf_values d =
      vecOf corpus d := by
  rw [docVectorFor,
    docVectorFor_eq_filterMap (buildFrom corpus).idf_values d
      (buildFrom corpus).inverted_index [] (nodup_keysOf_buildFrom_inv corpus)
      (buildFrom_inv_posting_nodup corpus) (by simp [keysOf_nil])]
  simp [vecOf]

theorem vecOf_entry (corpus : List CorpusRow) {d : Nat} {c : String}
    (hd : (docsOf corpus).lookup d = some c) {p : String × ℝ} (hp : p ∈ vecOf corpus d) :
    p.1 ∈ termsOf c ∧ p.2 = wVal (docsOf corpus) c p.1 := by
  have hl : (vecOf corpus d).lookup p.1 = some p.2 := by
    obtain ⟨a, b⟩ := p
    exact lookup_eq_some_of_mem_of_nodup hp (nodup_keysOf_vecOf corpus d)
  rw [vecOf_lookup corpus hd] at hl
  by_cases hct : p.1 ∈ termsOf c
  · rw [if_pos hct] at hl
    exact ⟨hct, (Option.some.inj hl).symm⟩
  · rw [if_neg hct] at hl
    exact Option.noConfusion hl

theorem mem_keysOf_vecOf_iff (corpus : List CorpusRow) {d : Nat} {c : String}
    (hd : (docsOf corpus).lookup d = some c) (t : String) :
    t ∈ keysOf (vecOf corpus d) ↔ t ∈ termsOf c := by
  rw [← lookup_isSome_iff_mem_keysOf, vecOf_lookup corpus hd]
  by_cases hct : t ∈ termsOf c <;> simp [hct]

theorem sum_sq_vecOf (corpus : List CorpusRow) {d : Nat} {c : String}
    (hd : (docsOf corpus).lookup d = some c) :
    ((vecOf corpus d).map fun q => q.2 ^ 2).sum =
      ((termsOf c).map fun t => wVal (docsOf corpus) c t ^ 2).sum := by
  have h1 : (vecOf corpus d).map (fun q => q.2 ^ 2) =
      (keysOf (vecOf corpus d)).map (fun t => wVal (docsOf corpus) c t ^ 2) := by
    rw [keysOf, List.map_map]
    refine List.map_congr_left fun p hp => ?_
    have := (vecOf_entry corpus hd hp).2
    simp [Function.comp, this]
  have hperm : (keysOf (vecOf corpus d)).Perm (termsOf c) :=
    (List.perm_ext_iff_of_nodup (nodup_keysOf_vecOf corpus d) (nodup_dedupF _)).mpr
      fun t => mem_keysOf_vecOf_iff corpus hd t
  rw [h1, (hperm.map _).sum_eq]

theorem buildFrom_doc_lengths_lookup (corpus : List CorpusRow) {d : Nat} {c : String}
    (hd : (docsOf corpus).lookup d = some c) :
    (buildFrom corpus).doc_lengths.lookup d = some (normVal (docsOf corpus) c) := by
  rw [buildFrom_doc_lengths,
    lookup_foldl_dictSet_map
      (fun d' _ => Real.sqrt (((docVectorFor (buildFrom corpus).inverted_index
        (buildFrom corpus).idf_values d').map fun q => q.2 ^ 2).sum))
      (docsOf corpus) [] d (nodup_keysOf_docsOf corpus),
    hd, Option.elim_some]
  rw [docVectorFor_buildFrom, sum_sq_vecOf corpus hd, normVal]

/-! ## Properties of the stable descending sort -/

theorem insDesc_perm (l : List (Nat × ℝ)) (x : Nat × ℝ) : (insDesc l x).Perm (x :: l) := by
  induction l with
  | nil => simp [insDesc]
  | cons y ys ih =>
      by_cases h : y.2 < x.2
      · simp [insDesc, h]
      · rw [insDesc, if_neg h]
        exact (ih.cons y).trans (List.Perm.swap x y ys)

theorem sortDesc_perm (l : List (Nat × ℝ)) : (sortDesc l).Perm l := by
  have key : ∀ (l acc : List (Nat × ℝ)), (l.foldl insDesc acc).Perm (acc ++ l) := by
    intro l
    induction l with
    | nil => intro acc; simp
    | cons x xs ih =>
        intro acc
        refine (ih _).trans ?_
        exact ((insDesc_perm acc x).append_right xs).trans List.perm_middle.symm
  simpa using key l []

theorem insDesc_sorted (x : Nat × ℝ) (l : List (Nat × ℝ))
    (h : l.Pairwise fun a b => b.2 ≤ a.2) :
    (insDesc l x).Pairwise fun a b => b.2 ≤ a.2 := by
  induction l with
  | nil => simp [insDesc]
  | cons y ys ih =>
      obtain ⟨hy, hys⟩ := List.pairwise_cons.mp h
      by_cases hlt : y.2 < x.2
      · rw [insDesc, if_pos hlt]
        refine List.pairwise_cons.mpr ⟨?_, h⟩
        intro z hz
        rcases List.mem_cons.mp hz with rfl | hz
        · exact le_of_lt hlt
        · exact (hy z hz).trans (le_of_lt hlt)
      · rw [insDesc, if_neg hlt]
        refine List.pairwise_cons.mpr ⟨?_, ih hys⟩
        intro z hz
        have hz' : z ∈ x :: ys := (insDesc_perm ys x).subset hz
        rcases List.mem_cons.mp hz' with rfl | hz'
        · exact le_of_not_lt hlt
        · exact hy z hz'

theorem sortDesc_sorted (l : List (Nat × ℝ)) :
    (sortDesc l).Pairwise fun a b => b.2 ≤ a.2 := by
  have key : ∀ (l acc : List (Nat × ℝ)), (acc.Pairwise fun a b => b.2 ≤ a.2) →
      ((l.foldl insDesc acc).Pairwise fun a b => b.2 ≤ a.2) := by
    intro l
    induction l with
    | nil => intro acc h; simpa using h
    | cons x xs ih => intro acc h; exact ih _ (insDesc_sorted x acc h)
  exact key l [] (by simp)

theorem optMapList_eq_filterMap {α β : Type*} (f : α → Option β) (l : List α)
    (h : ∀ a ∈ l, (f a).isSome) : optMapList f l = some (l.filterMap f) := by
  induction l with
  | nil => rfl
  | cons a l ih =>
      obtain ⟨b, hb⟩ := Option.isSome_iff_exists.mp (h a (by simp))
      have hl := ih fun x hx => h x (by simp [hx])
      simp [optMapList, hb, hl, List.filterMap_cons]

/-! ## Spec-level query evaluation of a fresh build -/

/-- The query vector of `search` over a fresh build, in corpus terms. -/
noncomputable def qVecOf (corpus : List CorpusRow) (query_terms : List String) :
    List (String × ℝ) :=
  (dedupF query_terms).filterMap fun t =>
    if dfN (docsOf corpus) t = 0 then none
    else some (t, ((query_terms.count t : ℝ) / (query_terms.length : ℝ)) *
      idfVal (docsOf corpus) t)

theorem queryVector_buildFrom (corpus : List CorpusRow) (qts : List String) :
    queryVector (buildFrom corpus) qts = qVecOf corpus qts := by
  rw [queryVector, qVecOf]
  refine List.filterMap_congr fun t _ => ?_
  rw [buildFrom_idf_lookup]
  by_cases hdf : dfN (docsOf corpus) t = 0 <;> simp [hdf]

/-- The raw dot product of the query vector with one document's vector. -/
noncomputable def dotVal (D : List (Nat × String)) (c : String)
    (qv : List (String × ℝ)) : ℝ :=
  (qv.map fun p => if p.1 ∈ termsOf c then p.2 * wVal D c p.1 else 0).sum

/-- The cosine score of one document, in corpus terms. -/
noncomputable def scoreVal (D : List (Nat × String)) (c : String)
    (qv : List (String × ℝ)) (ql : ℝ) : ℝ :=
  if 0 < normVal D c ∧ 0 < ql then dotVal D c qv / (normVal D c * ql) else dotVal D c qv

theorem scoreOf_buildFrom (corpus : List CorpusRow) {d : Nat} {c : String}
    (hd : (docsOf corpus).lookup d = some c) (qv : List (String × ℝ)) (ql : ℝ) :
    scoreOf (buildFrom corpus) qv ql d = some (scoreVal (docsOf corpus) c qv ql) := by
  rw [scoreOf, buildFrom_doc_vectors_lookup corpus hd, buildFrom_doc_lengths_lookup corpus hd]
  have hraw : (qv.map fun p =>
      match (vecOf corpus d).lookup p.1 with
      | some wd => p.2 * wd
      | none => 0).sum = dotVal (docsOf corpus) c qv := by
    rw [dotVal]
    congr 1
    refine List.map_congr_left fun p _ => ?_
    rw [vecOf_lookup corpus hd p.1]
    by_cases hct : p.1 ∈ termsOf c <;> simp [hct]
  simp [hraw, scoreVal]

/-- The score list of `search` over a fresh build: document order, only
positive scores kept. -/
noncomputable def scoresOf (corpus : List CorpusRow) (qv : List (String × ℝ)) (ql : ℝ) :
    List (Nat × ℝ) :=
  (((docsOf corpus).map fun p => (p.1, scoreVal (docsOf corpus) p.2 qv ql)).filter
    fun pr => decide (0 < pr.2))

/-- What `search` returns on a fresh build, in corpus terms. -/
noncomputable def searchList (corpus : List CorpusRow) (query : String) (top_k : Nat) :
    List SearchResult :=
  let query_terms := preprocess_text query
  if query_terms = [] then [] else
  let qv := qVecOf corpus query_terms
  if qv = [] then [] else
  let ql := queryNorm qv
  ((sortDesc (scoresOf corpus qv ql)).take top_k).filterMap fun pr =>
    ((docsOf corpus).lookup pr.1).bind fun c =>
      ((metaOf corpus).lookup pr.1).map fun mt =>
        ⟨pr.1, pr.2, mt.title, summaryOf query_terms c, mt.url, mt.date⟩

theorem mem_scoresOf_keys (corpus : List CorpusRow) {qv : List (String × ℝ)} {ql : ℝ}
    {pr : Nat × ℝ} (h : pr ∈ scoresOf corpus qv ql) : pr.1 ∈ keysOf (docsOf corpus) := by
  have h1 : pr ∈ (docsOf corpus).map fun p => (p.1, scoreVal (docsOf corpus) p.2 qv ql) :=
    List.mem_of_mem_filter h
  obtain ⟨p, hp, hpe⟩ := List.mem_map.mp h1
  have : pr.1 = p.1 := by rw [← hpe]
  rw [this]
  exact List.mem_map_of_mem Prod.fst hp

theorem resultFor_buildFrom (corpus : List CorpusRow) (qts : List String) (pr : Nat × ℝ) :
    resultFor (buildFrom corpus) qts pr =
      ((docsOf corpus).lookup pr.1).bind fun c =>
        ((metaOf corpus).lookup pr.1).map fun mt =>
          ⟨pr.1, pr.2, mt.title, summaryOf qts c, mt.url, mt.date⟩ := by
  rw [resultFor, buildFrom_documents, buildFrom_metadata]
  cases (docsOf corpus).lookup pr.1 <;> cases (metaOf corpus).lookup pr.1 <;> rfl

theorem search_buildFrom (corpus : List CorpusRow) (q : String) (k : Nat) :
    search (buildFrom corpus) q k = some (searchList corpus q k) := by
  simp only [search, searchList, queryVector_buildFrom]
  by_cases hq : preprocess_text q = []
  · simp [hq]
  · simp only [if_neg hq]
    by_cases hqv : qVecOf corpus (preprocess_text q) = []
    · simp [hqv]
    · simp only [if_neg hqv]
      have hscored : optMapList
          (fun p => (scoreOf (buildFrom corpus) (qVecOf corpus (preprocess_text q))
            (queryNorm (qVecOf corpus (preprocess_text q))) p.1).map fun s => (p.1, s))
          (buildFrom corpus).documents =
          some ((docsOf corpus).map fun p =>
            (p.1, scoreVal (docsOf corpus) p.2 (qVecOf corpus (preprocess_text q))
              (queryNorm (qVecOf corpus (preprocess_text q))))) := by
        rw [buildFrom_documents]
        refine optMapList_eq_map _ _ _ fun p hp => ?_
        have hl : (docsOf corpus).lookup p.1 = some p.2 := by
          obtain ⟨a, b⟩ := p
          exact lookup_eq_some_of_mem_of_nodup hp (nodup_keysOf_docsOf corpus)
        rw [scoreOf_buildFrom corpus hl]
        rfl
      rw [hscored]
      have hall : ∀ pr ∈ (sortDesc (scoresOf corpus (qVecOf corpus (preprocess_text q))
          (queryNorm (qVecOf corpus (preprocess_text q))))).take k,
          (resultFor (buildFrom corpus) (preprocess_text q) pr).isSome := by
        intro pr hpr
        have h1 : pr ∈ sortDesc (scoresOf corpus (qVecOf corpus (preprocess_text q))
            (queryNorm (qVecOf corpus (preprocess_text q)))) := List.mem_of_mem_take hpr
        have h2 : pr ∈ scoresOf corpus (qVecOf corpus (preprocess_text q))
            (queryNorm (qVecOf corpus (preprocess_text q))) := (sortDesc_perm _).subset h1
        have h3 : pr.1 ∈ keysOf (docsOf corpus) := mem_scoresOf_keys corpus h2
        obtain ⟨c, hc⟩ := Option.isSome_iff_exists.mp
          ((lookup_isSome_iff_mem_keysOf _ _).mpr h3)
        obtain ⟨mt, hmt⟩ := Option.isSome_iff_exists.mp
          ((lookup_isSome_iff_mem_keysOf _ _).mpr (by rw [keysOf_metaOf_eq]; exact h3))
        rw [resultFor, buildFrom_documents, buildFrom_metadata, hc, hmt]
        simp
      show optMapList (resultFor (buildFrom corpus) (preprocess_text q))
          ((sortDesc (scoresOf corpus (qVecOf corpus (preprocess_text q))
            (queryNorm (qVecOf corpus (preprocess_text q))))).take k) = _
      rw [optMapList_eq_filterMap _ _ hall]
      congr 1
      exact List.filterMap_congr fun pr _ =>
        resultFor_buildFrom corpus (preprocess_text q) pr

/-! ## Score bounds: non-negative weights and the Cauchy-Schwarz argument -/

/-- One query weight: normalized query frequency times idf. -/
noncomputable def qWeight (corpus : List CorpusRow) (qts : List String) (t : String) : ℝ :=
  ((qts.count t : ℝ) / (qts.length : ℝ)) * idfVal (docsOf corpus) t

/-- The distinct query terms that survive the vocabulary filter. -/
def qKeys (corpus : List CorpusRow) (qts : List String) : List String :=
  (dedupF qts).filter fun t => decide (dfN (docsOf corpus) t ≠ 0)

theorem filterMap_if_eq_map_filter {α β : Type*} (p : α → Prop) [DecidablePred p]
    (f : α → β) (l : List α) :
    (l.filterMap fun a => if p a then some (f a) else none) =
      (l.filter fun a => decide (p a)).map f := by
  induction l with
  | nil => rfl
  | cons a l ih =>
      by_cases h : p a <;> simp [List.filterMap_cons, List.filter_cons, h, ih]

theorem qVecOf_eq (corpus : List CorpusRow) (qts : List String) :
    qVecOf corpus qts = (qKeys corpus qts).map fun t => (t, qWeight corpus qts t) := by
  rw [qVecOf, qKeys]
  have h := filterMap_if_eq_map_filter (fun t => dfN (docsOf corpus) t ≠ 0)
    (fun t => (t, qWeight corpus qts t)) (dedupF qts)
  rw [← h]
  refine List.filterMap_congr fun t _ => ?_
  by_cases hdf : dfN (docsOf corpus) t = 0 <;> simp [hdf, qWeight]

theorem nodup_qKeys (corpus : List CorpusRow) (qts : List String) :
    (qKeys corpus qts).Nodup := (nodup_dedupF qts).filter _

theorem mem_qKeys_dfN {corpus : List CorpusRow} {qts : List String} {t : String}
    (h : t ∈ qKeys corpus qts) : dfN (docsOf corpus) t ≠ 0 := by
  have := (List.mem_filter.mp h).2
  simpa using this

theorem idfVal_nonneg {D : List (Nat × String)} {t : String} (h : dfN D t ≠ 0) :
    0 ≤ idfVal D t := by
  refine Real.log_nonneg ?_
  rw [le_div_iff₀ (by positivity), one_mul]
  exact_mod_cast dfN_le_length D t

theorem tfVal_nonneg (c t : String) : 0 ≤ tfVal c t := by
  rw [tfVal]; positivity

theorem qWeight_nonneg {corpus : List CorpusRow} {qts : List String} {t : String}
    (h : dfN (docsOf corpus) t ≠ 0) : 0 ≤ qWeight corpus qts t := by
  rw [qWeight]
  exact mul_nonneg (by positivity) (idfVal_nonneg h)

theorem dfN_pos_of_mem {D : List (Nat × String)} {d : Nat} {c : String} {t : String}
    (hdc : (d, c) ∈ D) (hct : t ∈ termsOf c) : dfN D t ≠ 0 := by
  rw [dfN]
  have : (d, c) ∈ D.filter fun p => decide (t ∈ termsOf p.2) :=
    List.mem_filter.mpr ⟨hdc, by simpa using hct⟩
  intro hlen
  rw [List.length_eq_zero] at hlen
  rw [hlen] at this
  simp at this

theorem wVal_nonneg {corpus : List CorpusRow} {d : Nat} {c : String} {t : String}
    (hdc : (d, c) ∈ docsOf corpus) (hct : t ∈ termsOf c) :
    0 ≤ wVal (docsOf corpus) c t := by
  rw [wVal]
  exact mul_nonneg (tfVal_nonneg c t) (idfVal_nonneg (dfN_pos_of_mem hdc hct))

theorem queryNorm_nonneg (qv : List (String × ℝ)) : 0 ≤ queryNorm qv := Real.sqrt_nonneg _

theorem normVal_nonneg (D : List (Nat × String)) (c : String) : 0 ≤ normVal D c :=
  Real.sqrt_nonneg _

theorem list_sum_eq_zero_of_nonneg {l : List ℝ} (h : ∀ x ∈ l, 0 ≤ x) (hs : l.sum = 0) :
    ∀ x ∈ l, x = 0 := by
  induction l with
  | nil => simp
  | cons a l ih =>
      have ha : 0 ≤ a := h a (by simp)
      have hl : 0 ≤ l.sum := List.sum_nonneg fun x hx => h x (by simp [hx])
      rw [List.sum_cons] at hs
      have ha0 : a = 0 := le_antisymm (by linarith) ha
      have hl0 : l.sum = 0 := by linarith
      intro x hx
      rcases List.mem_cons.mp hx with rfl | hx
      · exact ha0
      · exact ih (fun y hy => h y (by simp [hy])) hl0 x hx

/-- A vanishing query norm forces every query weight to vanish. -/
theorem qWeights_zero_of_norm_zero {qv : List (String × ℝ)} (h : queryNorm qv = 0) :
    ∀ p ∈ qv, p.2 = 0 := by
  rw [queryNorm] at h
  have hsum : (qv.map fun p => p.2 ^ 2).sum = 0 := by
    have h1 : (qv.map fun p => p.2 ^ 2).sum ≤ 0 := Real.sqrt_eq_zero'.mp h
    have h2 : 0 ≤ (qv.map fun p => p.2 ^ 2).sum :=
      List.sum_nonneg fun x hx => by
        obtain ⟨p, _, rfl⟩ := List.mem_map.mp hx
        positivity
    linarith
  intro p hp
  have := list_sum_eq_zero_of_nonneg
    (l := qv.map fun p => p.2 ^ 2)
    (fun x hx => by obtain ⟨r, _, rfl⟩ := List.mem_map.mp hx; positivity) hsum
    (p.2 ^ 2) (List.mem_map_of_mem _ hp)
  exact pow_eq_zero_iff (n := 2) (by norm_num) |>.mp this

/-- A vanishing document norm forces every surviving term weight to vanish. -/
theorem wVals_zero_of_norm_zero {D : List (Nat × String)} {c : String}
    (h : normVal D c = 0) : ∀ t ∈ termsOf c, wVal D c t = 0 := by
  rw [normVal] at h
  have hsum : (((termsOf c).map fun t => wVal D c t ^ 2)).sum = 0 := by
    have h1 := Real.sqrt_eq_zero'.mp h
    have h2 : 0 ≤ ((termsOf c).map fun t => wVal D c t ^ 2).sum :=
      List.sum_nonneg fun x hx => by
        obtain ⟨t, _, rfl⟩ := List.mem_map.mp hx
        positivity
    linarith
  intro t ht
  have := list_sum_eq_zero_of_nonneg
    (l := (termsOf c).map fun t => wVal D c t ^ 2)
    (fun x hx => by obtain ⟨r, _, rfl⟩ := List.mem_map.mp hx; positivity) hsum
    (wVal D c t ^ 2) (List.mem_map_of_mem _ ht)
  exact pow_eq_zero_iff (n := 2) (by norm_num) |>.mp this

theorem nodup_termsOf (c : String) : (termsOf c).Nodup := nodup_dedupF _

theorem dotVal_nonneg (corpus : List CorpusRow) {d : Nat} {c : String}
    (hdc : (d, c) ∈ docsOf corpus) (qts : List String) :
    0 ≤ dotVal (docsOf corpus) c (qVecOf corpus qts) := by
  rw [dotVal]
  refine List.sum_nonneg fun x hx => ?_
  obtain ⟨p, hp, rfl⟩ := List.mem_map.mp hx
  by_cases hct : p.1 ∈ termsOf c
  · rw [if_pos hct]
    rw [qVecOf_eq] at hp
    obtain ⟨t, htk, rfl⟩ := List.mem_map.mp hp
    exact mul_nonneg (qWeight_nonneg (mem_qKeys_dfN htk)) (wVal_nonneg hdc hct)
  · rw [if_neg hct]

theorem dotVal_eq_zero_of_qnorm_zero {D : List (Nat × String)} {c : String}
    {qv : List (String × ℝ)} (h : queryNorm qv = 0) : dotVal D c qv = 0 := by
  rw [dotVal]
  refine List.sum_eq_zero fun x hx => ?_
  obtain ⟨p, hp, rfl⟩ := List.mem_map.mp hx
  have hp2 : p.2 = 0 := qWeights_zero_of_norm_zero h p hp
  by_cases hct : p.1 ∈ termsOf c <;> simp [hct, hp2]

theorem dotVal_eq_zero_of_dnorm_zero {D : List (Nat × String)} {c : String}
    {qv : List (String × ℝ)} (h : normVal D c = 0) : dotVal D c qv = 0 := by
  rw [dotVal]
  refine List.sum_eq_zero fun x hx => ?_
  obtain ⟨p, hp, rfl⟩ := List.mem_map.mp hx
  by_cases hct : p.1 ∈ termsOf c
  · rw [if_pos hct, wVals_zero_of_norm_zero h p.1 hct, mul_zero]
  · rw [if_neg hct]

theorem dotVal_le_norms (corpus : List CorpusRow) (qts : List String) {d : Nat} {c : String}
    (_hdc : (d, c) ∈ docsOf corpus) :
    dotVal (docsOf corpus) c (qVecOf corpus qts) ≤
      normVal (docsOf corpus) c * queryNorm (qVecOf corpus qts) := by
  conv_lhs => rw [dotVal, qVecOf_eq, List.map_map]
  have hfun : ((fun p : String × ℝ =>
        if p.1 ∈ termsOf c then p.2 * wVal (docsOf corpus) c p.1 else 0) ∘
      fun t => (t, qWeight corpus qts t)) = fun t =>
        qWeight corpus qts t * (if t ∈ termsOf c then wVal (docsOf corpus) c t else 0) := by
    funext t
    by_cases h : t ∈ termsOf c <;> simp [h]
  rw [hfun, ← List.sum_toFinset _ (nodup_qKeys corpus qts)]
  have hCS := Real.sum_mul_le_sqrt_mul_sqrt (qKeys corpus qts).toFinset
    (fun t => qWeight corpus qts t)
    (fun t => if t ∈ termsOf c then wVal (docsOf corpus) c t else 0)
  refine hCS.trans ?_
  have hq : Real.sqrt (∑ t ∈ (qKeys corpus qts).toFinset, qWeight corpus qts t ^ 2) =
      queryNorm (qVecOf corpus qts) := by
    rw [queryNorm, qVecOf_eq, List.map_map,
      ← List.sum_toFinset _ (nodup_qKeys corpus qts)]
    rfl
  have hd : Real.sqrt (∑ t ∈ (qKeys corpus qts).toFinset,
      (if t ∈ termsOf c then wVal (docsOf corpus) c t else 0) ^ 2) ≤
      normVal (docsOf corpus) c := by
    rw [normVal]
    refine Real.sqrt_le_sqrt ?_
    have h1 : ∀ t ∈ (qKeys corpus qts).toFinset,
        (if t ∈ termsOf c then wVal (docsOf corpus) c t else 0) ^ 2 =
          if t ∈ (termsOf c).toFinset then wVal (docsOf corpus) c t ^ 2 else 0 := by
      intro t _
      by_cases h : t ∈ termsOf c <;> simp [h]
    rw [Finset.sum_congr rfl h1, Finset.sum_ite_mem]
    have h2 : ∑ t ∈ (qKeys corpus qts).toFinset ∩ (termsOf c).toFinset,
        wVal (docsOf corpus) c t ^ 2 ≤
        ∑ t ∈ (termsOf c).toFinset, wVal (docsOf corpus) c t ^ 2 :=
      Finset.sum_le_sum_of_subset_of_nonneg Finset.inter_subset_right
        (fun t _ _ => by positivity)
    refine h2.trans_eq ?_
    rw [List.sum_toFinset _ (nodup_termsOf c)]
  rw [hq]
  calc queryNorm (qVecOf corpus qts) * Real.sqrt (∑ t ∈ (qKeys corpus qts).toFinset,
        (if t ∈ termsOf c then wVal (docsOf corpus) c t else 0) ^ 2)
      ≤ queryNorm (qVecOf corpus qts) * normVal (docsOf corpus) c :=
        mul_le_mul_of_nonneg_left hd (queryNorm_nonneg _)
    _ = normVal (docsOf corpus) c * queryNorm (qVecOf corpus qts) := mul_comm _ _

theorem scoreVal_mem_unit (corpus : List CorpusRow) (qts : List String) {d : Nat}
    {c : String} (hdc : (d, c) ∈ docsOf corpus) :
    0 ≤ scoreVal (docsOf corpus) c (qVecOf corpus qts) (queryNorm (qVecOf corpus qts)) ∧
    scoreVal (docsOf corpus) c (qVecOf corpus qts) (queryNorm (qVecOf corpus qts)) ≤ 1 := by
  rw [scoreVal]
  by_cases hcond : 0 < normVal (docsOf corpus) c ∧ 0 < queryNorm (qVecOf corpus qts)
  · rw [if_pos hcond]
    constructor
    · exact div_nonneg (dotVal_nonneg corpus hdc qts)
        (mul_nonneg (le_of_lt hcond.1) (le_of_lt hcond.2))
    · rw [div_le_one (mul_pos hcond.1 hcond.2)]
      exact dotVal_le_norms corpus qts hdc
  · rw [if_neg hcond]
    have hzero : dotVal (docsOf corpus) c (qVecOf corpus qts) = 0 := by
      rcases not_and_or.mp hcond with h | h
      · exact dotVal_eq_zero_of_dnorm_zero
          (le_antisymm (le_of_not_lt h) (normVal_nonneg _ _))
      · exact dotVal_eq_zero_of_qnorm_zero
          (le_antisymm (le_of_not_lt h) (queryNorm_nonneg _))
    rw [hzero]
    exact ⟨le_refl 0, by norm_num⟩

theorem scoreVal_eq_zero_of_norm_zero {D : List (Nat × String)} {c : String}
    {qv : List (String × ℝ)}
    (h : normVal D c = 0 ∨ queryNorm qv = 0) :
    scoreVal D c qv (queryNorm qv) = 0 := by
  rw [scoreVal]
  have hcond : ¬(0 < normVal D c ∧ 0 < queryNorm qv) := by
    rintro ⟨h1, h2⟩
    rcases h with h | h
    · rw [h] at h1; exact lt_irrefl 0 h1
    · rw [h] at h2; exact lt_irrefl 0 h2
  rw [if_neg hcond]
  rcases h with h | h
  · exact dotVal_eq_zero_of_dnorm_zero h
  · exact dotVal_eq_zero_of_qnorm_zero h

/-! ## Structure of the returned results -/

theorem pairwise_filterMap {α β : Type*} {R : α → α → Prop} {S : β → β → Prop}
    (g : α → Option β)
    (hpres : ∀ a b x y, R a b → g a = some x → g b = some y → S x y) :
    ∀ {l : List α}, l.Pairwise R → (l.filterMap g).Pairwise S := by
  intro l
  induction l with
  | nil => simp
  | cons a l ih =>
      intro h
      obtain ⟨ha, hl⟩ := List.pairwise_cons.mp h
      cases hg : g a with
      | none => simpa [List.filterMap_cons, hg] using ih hl
      | some x =>
          rw [List.filterMap_cons, hg]
          refine List.pairwise_cons.mpr ⟨?_, ih hl⟩
          intro y hy
          obtain ⟨b, hb, hgb⟩ := List.mem_filterMap.mp hy
          exact hpres a b x y (ha b hb) hg hgb

/-- Decompose one assembled result of `searchList`. -/
theorem searchListEntry {corpus : List CorpusRow} {qts : List String} {pr : Nat × ℝ}
    {r : SearchResult}
    (h : (((docsOf corpus).lookup pr.1).bind fun c =>
      ((metaOf corpus).lookup pr.1).map fun mt =>
        (⟨pr.1, pr.2, mt.title, summaryOf qts c, mt.url, mt.date⟩ : SearchResult)) = some r) :
    r.doc_id = pr.1 ∧ r.score = pr.2 ∧
      ∃ c, (docsOf corpus).lookup pr.1 = some c ∧ r.summary = summaryOf qts c := by
  cases hc : (docsOf corpus).lookup pr.1 with
  | none => rw [hc] at h; simp at h
  | some c =>
      rw [hc] at h
      cases hm : (metaOf corpus).lookup pr.1 with
      | none => rw [hm] at h; simp at h
      | some mt =>
          rw [hm] at h
          simp only [Option.some_bind', Option.map_some'] at h
          obtain rfl : (⟨pr.1, pr.2, mt.title, summaryOf qts c, mt.url, mt.date⟩ :
            SearchResult) = r := Option.some.inj h
          exact ⟨rfl, rfl, c, rfl, rfl⟩

/-- Decompose one entry of the positive-score list. -/
theorem mem_scoresOf {corpus : List CorpusRow} {qv : List (String × ℝ)} {ql : ℝ}
    {pr : Nat × ℝ} (h : pr ∈ scoresOf corpus qv ql) :
    0 < pr.2 ∧ ∃ c, (docsOf corpus).lookup pr.1 = some c ∧
      pr.2 = scoreVal (docsOf corpus) c qv ql := by
  rw [scoresOf] at h
  have h0 := List.of_mem_filter h
  have h1 := List.mem_of_mem_filter h
  obtain ⟨p, hp, hpe⟩ := List.mem_map.mp h1
  refine ⟨of_decide_eq_true h0, p.2, ?_, ?_⟩
  · rw [← hpe]
    have : (p.1, p.2) ∈ docsOf corpus := hp
    exact lookup_eq_some_of_mem_of_nodup this (nodup_keysOf_docsOf corpus)
  · rw [← hpe]

/-- Every returned result corresponds to one positive-score entry. -/
theorem mem_searchList {corpus : List CorpusRow} {q : String} {k : Nat} {r : SearchResult}
    (hr : r ∈ searchList corpus q k) :
    ∃ pr ∈ scoresOf corpus (qVecOf corpus (preprocess_text q))
      (queryNorm (qVecOf corpus (preprocess_text q))),
      r.doc_id = pr.1 ∧ r.score = pr.2 ∧
      ∃ c, (docsOf corpus).lookup pr.1 = some c ∧
        r.summary = summaryOf (preprocess_text q) c := by
  rw [searchList] at hr
  by_cases hq : preprocess_text q = []
  · simp [hq] at hr
  · rw [if_neg hq] at hr
    by_cases hqv : qVecOf corpus (preprocess_text q) = []
    · simp only [hqv, if_pos] at hr
      simp at hr
    · rw [if_neg hqv] at hr
      obtain ⟨pr, hprmem, hpre⟩ := List.mem_filterMap.mp hr
      have h1 : pr ∈ sortDesc (scoresOf corpus (qVecOf corpus (preprocess_text q))
          (queryNorm (qVecOf corpus (preprocess_text q)))) := List.mem_of_mem_take hprmem
      have h2 : pr ∈ scoresOf corpus (qVecOf corpus (preprocess_text q))
          (queryNorm (qVecOf corpus (preprocess_text q))) := (sortDesc_perm _).subset h1
      exact ⟨pr, h2, searchListEntry hpre⟩

/-- Claim C1 (amended): for every built index and every query, the sequence
returned by `search` is sorted by score in descending order.  The relative
order of equal-score results is the stable-sort order, i.e. the order in
which their documents were inserted into the corpus, which need not be
ascending document id (see the counterexample). -/
theorem search_results_sorted_desc (corpus : List CorpusRow) (q : String) (k : Nat)
    (rs : List SearchResult) (h : search (buildFrom corpus) q k = some rs) :
    rs.Pairwise fun a b => b.score ≤ a.score := by
  rw [search_buildFrom] at h
  obtain rfl : searchList corpus q k = rs := Option.some.inj h
  rw [searchList]
  by_cases hq : preprocess_text q = []
  · simp [hq]
  · rw [if_neg hq]
    by_cases hqv : qVecOf corpus (preprocess_text q) = []
    · simp [hqv]
    · rw [if_neg hqv]
      refine pairwise_filterMap _ ?_ ((sortDesc_sorted _).sublist (List.take_sublist _ _))
      intro a b x y hab hga hgb
      rw [(searchListEntry hga).2.1, (searchListEntry hgb).2.1]
      exact hab

/-- Claim C2: on a fresh build, every cosine score lies in `[0, 1]`; a zero
document norm or zero query norm forces a zero score and that document is
omitted from the results; every returned result has a strictly positive
score (and score at most 1). -/
theorem search_score_bounds (corpus : List CorpusRow) (q : String) (k : Nat)
    (rs : List SearchResult) (h : search (buildFrom corpus) q k = some rs) :
    (∀ d c, (docsOf corpus).lookup d = some c →
      (0 ≤ scoreVal (docsOf corpus) c (qVecOf corpus (preprocess_text q))
          (queryNorm (qVecOf corpus (preprocess_text q))) ∧
        scoreVal (docsOf corpus) c (qVecOf corpus (preprocess_text q))
          (queryNorm (qVecOf corpus (preprocess_text q))) ≤ 1) ∧
      ((normVal (docsOf corpus) c = 0 ∨
          queryNorm (qVecOf corpus (preprocess_text q)) = 0) →
        scoreVal (docsOf corpus) c (qVecOf corpus (preprocess_text q))
          (queryNorm (qVecOf corpus (preprocess_text q))) = 0 ∧
        ∀ r ∈ rs, r.doc_id ≠ d)) ∧
    ∀ r ∈ rs, 0 < r.score ∧ r.score ≤ 1 := by
  rw [search_buildFrom] at h
  obtain rfl : searchList corpus q k = rs := Option.some.inj h
  constructor
  · intro d c hd
    refine ⟨scoreVal_mem_unit corpus (preprocess_text q) (mem_of_lookup_eq_some hd), ?_⟩
    intro hnorm
    refine ⟨scoreVal_eq_zero_of_norm_zero hnorm, ?_⟩
    intro r hr hrd
    obtain ⟨pr, hpr, hid, hsc, _⟩ := mem_searchList hr
    obtain ⟨hpos, c', hc', hval⟩ := mem_scoresOf hpr
    have hd1 : pr.1 = d := by rw [← hid, hrd]
    rw [hd1] at hc'
    obtain rfl : c' = c := Option.some.inj (hc'.symm.trans hd)
    rw [hval, scoreVal_eq_zero_of_norm_zero hnorm] at hpos
    exact lt_irrefl 0 hpos
  · intro r hr
    obtain ⟨pr, hpr, hid, hsc, _⟩ := mem_searchList hr
    obtain ⟨hpos, c', hc', hval⟩ := mem_scoresOf hpr
    constructor
    · rw [hsc]; exact hpos
    · rw [hsc, hval]
      exact (scoreVal_mem_unit corpus (preprocess_text q) (mem_of_lookup_eq_some hc')).2

theorem list_map_sum_mul {α : Type*} (l : List α) (f : α → ℝ) (r : ℝ) :
    (l.map fun a => f a * r).sum = (l.map f).sum * r := by
  induction l with
  | nil => simp
  | cons a l ih => simp [ih, add_mul]

theorem dedupF_eq_nil_iff (l : List String) : dedupF l = [] ↔ l = [] := by
  cases l <;> simp [dedupF]

/-- Claim C3: after a fresh build with at least one indexed occurrence of
`t` (so `N ≥ 1`), the posting list of `t` has length `df(t)`, the stored
idf is `ln(N / df(t))`, that value is non-negative, and it is zero exactly
when `t` occurs in every loaded document. -/
theorem idf_characterization (corpus : List CorpusRow) (t : String)
    (hdf : 0 < dfN (docsOf corpus) t) :
    ∃ ps, (buildFrom corpus).inverted_index.lookup t = some ps ∧
      ps.length = dfN (docsOf corpus) t ∧
      (buildFrom corpus).idf_values.lookup t =
        some (Real.log (((docsOf corpus).length : ℝ) / (dfN (docsOf corpus) t : ℝ))) ∧
      0 ≤ Real.log (((docsOf corpus).length : ℝ) / (dfN (docsOf corpus) t : ℝ)) ∧
      (Real.log (((docsOf corpus).length : ℝ) / (dfN (docsOf corpus) t : ℝ)) = 0 ↔
        ∀ p ∈ docsOf corpus, t ∈ termsOf p.2) := by
  have hdf' : dfN (docsOf corpus) t ≠ 0 := Nat.pos_iff_ne_zero.mp hdf
  have hne : postingsOf (docsOf corpus) t ≠ [] := fun hh =>
    hdf' ((postingsOf_eq_nil_iff _ _).mp hh)
  have hdfle := dfN_le_length (docsOf corpus) t
  have hNpos : 0 < (docsOf corpus).length := lt_of_lt_of_le hdf hdfle
  have hx1 : (1:ℝ) ≤ ((docsOf corpus).length : ℝ) / (dfN (docsOf corpus) t : ℝ) := by
    rw [le_div_iff₀ (by exact_mod_cast hdf), one_mul]
    exact_mod_cast hdfle
  refine ⟨postingsOf (docsOf corpus) t, ?_, length_postingsOf _ _, ?_, ?_, ?_⟩
  · rw [buildFrom_inv_lookup, if_neg hne]
  · rw [buildFrom_idf_lookup, if_neg hdf', idfVal]
  · exact Real.log_nonneg hx1
  · constructor
    · intro hlog
      have hx : ((docsOf corpus).length : ℝ) / (dfN (docsOf corpus) t : ℝ) = 1 := by
        rcases Real.log_eq_zero.mp hlog with h | h | h
        · exact absurd (h ▸ hx1) (by norm_num)
        · exact h
        · exact absurd (h ▸ hx1) (by norm_num)
      have hdfc : (0:ℝ) < (dfN (docsOf corpus) t : ℝ) := by exact_mod_cast hdf
      rw [div_eq_one_iff_eq (ne_of_gt hdfc)] at hx
      have hNdf : (docsOf corpus).length = dfN (docsOf corpus) t := by exact_mod_cast hx
      have hfl : ((docsOf corpus).filter fun p => decide (t ∈ termsOf p.2)) =
          docsOf corpus :=
        List.Sublist.eq_of_length ((docsOf corpus).filter_sublist) (by rw [← dfN, ← hNdf])
      intro p hp
      have := List.filter_eq_self.mp hfl p hp
      simpa using this
    · intro hall
      have hfl : ((docsOf corpus).filter fun p => decide (t ∈ termsOf p.2)) =
          docsOf corpus :=
        List.filter_eq_self.mpr fun p hp => by simpa using hall p hp
      have hNdf : dfN (docsOf corpus) t = (docsOf corpus).length := by
        rw [dfN, hfl]
      rw [hNdf, div_self (by exact_mod_cast Nat.pos_iff_ne_zero.mp hNpos), Real.log_one]

/-- Claim C8: for every loaded document with a non-empty filtered token
sequence, the normalized term frequencies sum to exactly 1 over the
document's distinct terms, each lies in `[0, 1]`, and each is the value
stored for this document in that term's posting list of a fresh build. -/
theorem tf_normalization (corpus : List CorpusRow) (d : Nat) (c : String)
    (hd : (docsOf corpus).lookup d = some c) (hne : preprocess_text c ≠ []) :
    ((termsOf c).map fun t => tfVal c t).sum = 1 ∧
    (∀ t ∈ termsOf c, 0 ≤ tfVal c t ∧ tfVal c t ≤ 1) ∧
    (∀ t ∈ termsOf c, ∃ ps, (buildFrom corpus).inverted_index.lookup t = some ps ∧
      (d, tfVal c t) ∈ ps) := by
  have hLn : 0 < (preprocess_text c).length := List.length_pos.mpr hne
  have hL : (0:ℝ) < ((preprocess_text c).length : ℝ) := by exact_mod_cast hLn
  have hcount : ((termsOf c).map fun t => (preprocess_text c).count t).sum
      = (preprocess_text c).length := by
    rw [termsOf]
    have h1 := (dedupF_perm_dedup (preprocess_text c)).map
      fun t => (preprocess_text c).count t
    rw [h1.sum_eq, ← List.sum_toFinset _ (preprocess_text c).nodup_dedup,
      show (preprocess_text c).dedup.toFinset = (preprocess_text c).toFinset from by
        ext a; simp]
    exact List.sum_toFinset_count_eq_length _
  refine ⟨?_, ?_, ?_⟩
  · have hrw : ((termsOf c).map fun t => tfVal c t) =
        (termsOf c).map fun t =>
          ((preprocess_text c).count t : ℝ) * (((preprocess_text c).length : ℝ))⁻¹ := by
      refine List.map_congr_left fun t _ => ?_
      rw [tfVal, div_eq_mul_inv]
    rw [hrw, list_map_sum_mul]
    have hcast : ((termsOf c).map fun t => ((preprocess_text c).count t : ℝ)).sum =
        ((preprocess_text c).length : ℝ) := by
      rw [show ((termsOf c).map fun t => ((preprocess_text c).count t : ℝ)) =
          ((termsOf c).map fun t => (preprocess_text c).count t).map
            (fun n : ℕ => (n : ℝ)) from by rw [List.map_map]; rfl,
        ← Nat.cast_list_sum, hcount]
    rw [hcast, mul_inv_cancel₀ (ne_of_gt hL)]
  · intro t _
    refine ⟨tfVal_nonneg c t, ?_⟩
    rw [tfVal, div_le_one hL]
    exact_mod_cast List.count_le_length t (preprocess_text c)
  · intro t ht
    have hdc : (d, c) ∈ docsOf corpus := mem_of_lookup_eq_some hd
    have hmem : (d, tfVal c t) ∈ postingsOf (docsOf corpus) t :=
      List.mem_filterMap.mpr ⟨(d, c), hdc, by simp [ht]⟩
    have hpne : postingsOf (docsOf corpus) t ≠ [] := by
      intro hh; rw [hh] at hmem; simp at hmem
    exact ⟨postingsOf (docsOf corpus) t, by rw [buildFrom_inv_lookup, if_neg hpne], hmem⟩

/-- Claim C10: when the query's surviving tokens are all in the vocabulary
but each occurs in every loaded document (idf 0 for all of them), the
query vector is non-empty with all-zero weights, the query norm is 0, and
`search` returns the empty result list instead of dividing by zero. -/
theorem ubiquitous_terms_empty_result (corpus : List CorpusRow) (q : String) (k : Nat)
    (hq : preprocess_text q ≠ []) (hN : docsOf corpus ≠ [])
    (hall : ∀ t ∈ preprocess_text q, dfN (docsOf corpus) t = (docsOf corpus).length) :
    qVecOf corpus (preprocess_text q) ≠ [] ∧
    (∀ p ∈ qVecOf corpus (preprocess_text q), p.2 = 0) ∧
    queryNorm (qVecOf corpus (preprocess_text q)) = 0 ∧
    search (buildFrom corpus) q k = some [] := by
  have hN0 : (docsOf corpus).length ≠ 0 := by
    intro hh; exact hN (List.length_eq_zero.mp hh)
  have hdfall : ∀ t ∈ preprocess_text q, dfN (docsOf corpus) t ≠ 0 := by
    intro t ht; rw [hall t ht]; exact hN0
  have hkeys : qKeys corpus (preprocess_text q) = dedupF (preprocess_text q) := by
    rw [qKeys]
    refine List.filter_eq_self.mpr fun t ht => ?_
    simpa using hdfall t (mem_dedupF.mp ht)
  have hqvne : qVecOf corpus (preprocess_text q) ≠ [] := by
    rw [qVecOf_eq, hkeys]
    intro hh
    exact hq ((dedupF_eq_nil_iff _).mp (List.map_eq_nil_iff.mp hh))
  have hw : ∀ p ∈ qVecOf corpus (preprocess_text q), p.2 = 0 := by
    intro p hp
    rw [qVecOf_eq, hkeys] at hp
    obtain ⟨t, ht, rfl⟩ := List.mem_map.mp hp
    have ht' := mem_dedupF.mp ht
    have : idfVal (docsOf corpus) t = 0 := by
      rw [idfVal, hall t ht',
        div_self (by exact_mod_cast hN0), Real.log_one]
    simp [qWeight, this]
  have hql : queryNorm (qVecOf corpus (preprocess_text q)) = 0 := by
    rw [queryNorm,
      show ((qVecOf corpus (preprocess_text q)).map fun p => p.2 ^ 2).sum = 0 from
        List.sum_eq_zero fun x hx => by
          obtain ⟨p, hp, rfl⟩ := List.mem_map.mp hx
          rw [hw p hp]; norm_num,
      Real.sqrt_zero]
  refine ⟨hqvne, hw, hql, ?_⟩
  rw [search_buildFrom]
  congr 1
  rw [searchList, if_neg hq, if_neg hqvne]
  have hscores : scoresOf corpus (qVecOf corpus (preprocess_text q))
      (queryNorm (qVecOf corpus (preprocess_text q))) = [] := by
    rw [scoresOf]
    refine List.filter_eq_nil_iff.mpr fun pr hpr => ?_
    obtain ⟨p, _, rfl⟩ := List.mem_map.mp hpr
    have : scoreVal (docsOf corpus) p.2 (qVecOf corpus (preprocess_text q))
        (queryNorm (qVecOf corpus (preprocess_text q))) = 0 :=
      scoreVal_eq_zero_of_norm_zero (Or.inr hql)
    simp [this]
  simp only [hscores]
  rw [show sortDesc [] = [] from rfl, List.take_nil, List.filterMap_nil]

/-- Claim C7 (amended): calling `search` on a freshly constructed engine,
before any index is built or loaded, raises nothing and returns the empty
result list; the source contains no `NotReadyError` and no readiness
check. -/
theorem search_unready_returns_empty (q : String) (k : Nat) :
    search emptyEngine q k = some [] := by
  rw [search]
  by_cases hq : preprocess_text q = []
  · simp [hq]
  · have hqv : queryVector emptyEngine (preprocess_text q) = [] := by
      simp [queryVector, emptyEngine]
    simp [hq, hqv]

/-! ## Concrete corpora used to exercise the claims -/

def mA : Meta := ⟨"tA", "a.txt", "uA", "dA"⟩

def mB : Meta := ⟨"tB", "b.txt", "uB", "dB"⟩

def mC : Meta := ⟨"tC", "c.txt", "uC", "dC"⟩

/-- Three documents, inserted with ids 2, 1, 3: documents 2 and 1 have
identical content, so they get identical scores for the query `"foo"`. -/
def corpusA : List CorpusRow := [⟨2, mA, "foo bar"⟩, ⟨1, mB, "foo bar"⟩, ⟨3, mC, "baz"⟩]

/-- A one-document corpus. -/
def corpus1 : List CorpusRow := [⟨0, mA, "foo"⟩]

/-- The query vector of the query `"foo"` against `corpusA`. -/
noncomputable def qvA : List (String × ℝ) := qVecOf corpusA ["foo"]

/-- The common score of documents 2 and 1 of `corpusA` for the query
`"foo"` (their contents are the same string). -/
noncomputable def sA : ℝ := scoreVal (docsOf corpusA) "foo bar" qvA (queryNorm qvA)

/-- Result for document 2 of `corpusA` under the query `"foo"`. -/
noncomputable def res2 : SearchResult := ⟨2, sA, "tA", "foo bar.", "uA", "dA"⟩

/-- Result for document 1 of `corpusA` under the query `"foo"`. -/
noncomputable def res1 : SearchResult := ⟨1, sA, "tB", "foo bar.", "uB", "dB"⟩

theorem docsOfA : docsOf corpusA = [(2, "foo bar"), (1, "foo bar"), (3, "baz")] := rfl

theorem qvA_eq : qvA = [("foo", qWeight corpusA ["foo"] "foo")] := by
  rw [qvA, qVecOf_eq, show qKeys corpusA ["foo"] = ["foo"] from rfl]
  rfl

theorem idfA_foo_pos : 0 < idfVal (docsOf corpusA) "foo" := by
  rw [idfVal, show dfN (docsOf corpusA) "foo" = 2 from rfl,
    show (docsOf corpusA).length = 3 from rfl]
  refine Real.log_pos ?_
  rw [lt_div_iff₀ (by norm_num)]
  norm_num

theorem tfA_foo_pos : 0 < tfVal "foo bar" "foo" := by
  rw [tfVal, show (preprocess_text "foo bar").count "foo" = 1 from rfl,
    show (preprocess_text "foo bar").length = 2 from rfl]
  norm_num

theorem wA_foo_pos : 0 < wVal (docsOf corpusA) "foo bar" "foo" :=
  mul_pos tfA_foo_pos idfA_foo_pos

theorem qWA_pos : 0 < qWeight corpusA ["foo"] "foo" := by
  rw [qWeight, show (["foo"].count "foo" : ℝ) = 1 by norm_num,
    show ((["foo"] : List String).length : ℝ) = 1 by norm_num]
  simpa using idfA_foo_pos

theorem normA_pos : 0 < normVal (docsOf corpusA) "foo bar" := by
  rw [normVal, show termsOf "foo bar" = ["foo", "bar"] from rfl]
  refine Real.sqrt_pos.mpr ?_
  rw [List.map_cons, List.map_cons, List.map_nil, List.sum_cons, List.sum_cons,
    List.sum_nil]
  have h1 : 0 < wVal (docsOf corpusA) "foo bar" "foo" ^ 2 := pow_pos wA_foo_pos 2
  have h2 : 0 ≤ wVal (docsOf corpusA) "foo bar" "bar" ^ 2 := sq_nonneg _
  linarith

theorem qnormA_pos : 0 < queryNorm qvA := by
  rw [queryNorm, qvA_eq, List.map_cons, List.map_nil, List.sum_cons, List.sum_nil]
  refine Real.sqrt_pos.mpr ?_
  have := pow_pos qWA_pos 2
  linarith

theorem dotA_pos : 0 < dotVal (docsOf corpusA) "foo bar" qvA := by
  rw [dotVal, qvA_eq, List.map_cons, List.map_nil, List.sum_cons, List.sum_nil,
    if_pos (show "foo" ∈ termsOf "foo bar" by decide)]
  have := mul_pos qWA_pos wA_foo_pos
  linarith

theorem sA_pos : 0 < sA := by
  rw [sA, scoreVal, if_pos ⟨normA_pos, qnormA_pos⟩]
  exact div_pos dotA_pos (mul_pos normA_pos qnormA_pos)

theorem sbazA_zero : scoreVal (docsOf corpusA) "baz" qvA (queryNorm qvA) = 0 := by
  have hdot : dotVal (docsOf corpusA) "baz" qvA = 0 := by
    rw [dotVal, qvA_eq, List.map_cons, List.map_nil, List.sum_cons, List.sum_nil,
      if_neg (show ¬("foo" ∈ termsOf "baz") by decide)]
    norm_num
  rw [scoreVal, hdot]
  split_ifs with h
  · exact zero_div _
  · rfl

theorem scoresOfA : scoresOf corpusA qvA (queryNorm qvA) = [(2, sA), (1, sA)] := by
  rw [scoresOf, docsOfA, List.map_cons, List.map_cons, List.map_cons, List.map_nil]
  have h1 : decide (0 < scoreVal [(2, "foo bar"), (1, "foo bar"), (3, "baz")]
      "foo bar" qvA (queryNorm qvA)) = true :=
    decide_eq_true sA_pos
  have h0 : decide (0 < scoreVal [(2, "foo bar"), (1, "foo bar"), (3, "baz")]
      "baz" qvA (queryNorm qvA)) = false :=
    decide_eq_false (by
      rw [show scoreVal [(2, "foo bar"), (1, "foo bar"), (3, "baz")] "baz" qvA
        (queryNorm qvA) = 0 from sbazA_zero]
      exact lt_irrefl 0)
  simp only [List.filter_cons, List.filter_nil, h1, h0]
  rfl

theorem sortDescA : sortDesc [(2, sA), (1, sA)] = [(2, sA), (1, sA)] := by
  simp [sortDesc, insDesc, lt_irrefl]

theorem summaryA : summaryOf ["foo"] "foo bar" = "foo bar." := rfl

theorem searchA_eval : search (buildFrom corpusA) "foo" 10 = some [res2, res1] := by
  rw [search_buildFrom]
  congr 1
  simp only [searchList]
  rw [show preprocess_text "foo" = ["foo"] from rfl]
  rw [if_neg (show ¬(["foo"] : List String) = [] by decide)]
  rw [show qVecOf corpusA ["foo"] = qvA from rfl]
  rw [if_neg (show ¬qvA = [] by rw [qvA_eq]; simp)]
  rw [scoresOfA, sortDescA]
  rw [show List.take 10 [(2, sA), (1, sA)] = [(2, sA), (1, sA)] from rfl]
  rw [List.filterMap_cons, List.filterMap_cons, List.filterMap_nil]
  rw [show ((docsOf corpusA).lookup (2, sA).1) = some "foo bar" from rfl,
    show ((metaOf corpusA).lookup (2, sA).1) = some mA from rfl,
    show ((docsOf corpusA).lookup (1, sA).1) = some "foo bar" from rfl,
    show ((metaOf corpusA).lookup (1, sA).1) = some mB from rfl]
  simp only [Option.some_bind', Option.map_some']
  rw [summaryA]
  rfl

/-- Modelled from the claim's words (C1): results sorted by score
descending, any two results with equal score in ascending document-id
order. -/
def claimOrder (a b : SearchResult) : Prop :=
  b.score < a.score ∨ (a.score = b.score ∧ a.doc_id < b.doc_id)

/-- Counterexample to claim C1 as stated: on `corpusA` (documents inserted
with ids 2, 1, 3; documents 2 and 1 identical) the query `"foo"` returns
the equal-score results in insertion order `[2, 1]`, not in ascending
document-id order. -/
theorem tie_break_not_ascending_id :
    search (buildFrom corpusA) "foo" 10 = some [res2, res1] ∧
    ¬([res2, res1].Pairwise claimOrder) := by
  refine ⟨searchA_eval, ?_⟩
  intro h
  have hco : claimOrder res2 res1 := (List.pairwise_cons.mp h).1 res1 (by simp)
  rcases hco with h1 | ⟨_, h2⟩
  · exact lt_irrefl sA h1
  · exact absurd h2 (by decide)

/-- Collect, scanning left to right, up to `n` entries satisfying the
predicate. -/
def collectFirst (pred : List Char → Bool) : List (List Char) → Nat → List (List Char)
  | [], _ => []
  | _ :: _, 0 => []
  | s :: ss, n + 1 =>
      if pred s then s :: collectFirst pred ss n else collectFirst pred ss (n + 1)

/-- Modelled from the claim's words (C9): split the document text on `.`,
`!` and `?`, scan sentences in document order, collect up to the first 3
sentences containing any query term, and join them with `'. '` — nothing
else (no trailing period). -/
def specSnippet (query_terms : List String) (content : String) : String :=
  String.intercalate ". "
    ((collectFirst
        (fun s => query_terms.any fun t => isInfixStr t.data (s.map lowerChar))
        (splitSent content.data) 3).map fun s => String.mk s)

/-- Claim C9 as amended: the same scan, but each collected sentence is
whitespace-stripped and a final `'.'` is appended to a non-empty join. -/
def specSnippetAmended (query_terms : List String) (content : String) : String :=
  let picked := (collectFirst
      (fun s => query_terms.any fun t => isInfixStr t.data (s.map lowerChar))
      (splitSent content.data) 3).map fun s => String.mk (stripStr s)
  if picked = [] then "" else String.intercalate ". " picked ++ "."

theorem collectFirst_eq_take_filter (pred : List Char → Bool) (l : List (List Char)) :
    ∀ n, collectFirst pred l n = (l.filter pred).take n := by
  induction l with
  | nil => intro n; simp [collectFirst]
  | cons s ss ih =>
      intro n
      cases n with
      | zero =>
          by_cases h : pred s <;> simp [collectFirst, List.filter_cons, h]
      | succ n =>
          by_cases h : pred s <;> simp [collectFirst, List.filter_cons, h, ih]

theorem summaryOf_eq_specAmended (qts : List String) (content : String) :
    summaryOf qts content = specSnippetAmended qts content := by
  rw [summaryOf, specSnippetAmended]
  simp only [collectFirst_eq_take_filter]
  by_cases hm : (splitSent content.data).filter
      (fun s => qts.any fun t => isInfixStr t.data (s.map lowerChar)) = []
  · simp [hm]
  · have h1 : ((splitSent content.data).filter
        (fun s => qts.any fun t => isInfixStr t.data (s.map lowerChar))).map
          (fun s => String.mk (stripStr s)) ≠ [] := by simpa using hm
    have h2 : (((splitSent content.data).filter
        (fun s => qts.any fun t => isInfixStr t.data (s.map lowerChar))).take 3).map
          (fun s => String.mk (stripStr s)) ≠ [] := by
      simp only [ne_eq, List.map_eq_nil_iff, List.take_eq_nil_iff]
      push_neg
      exact ⟨by norm_num, hm⟩
    rw [if_neg h1, if_neg h2, ← List.map_take]

/-- Claim C9 (amended): every returned result's snippet is obtained by
splitting the document text on `.`, `!`, `?`, scanning sentences in
document order, collecting (whitespace-stripped) up to the first 3
sentences containing any query term, joining them with `'. '` and
appending a final `'.'`; if no sentence matches, the snippet is the empty
string. -/
theorem snippet_shape (corpus : List CorpusRow) (q : String) (k : Nat)
    (rs : List SearchResult) (h : search (buildFrom corpus) q k = some rs) :
    ∀ r ∈ rs, ∃ c, (docsOf corpus).lookup r.doc_id = some c ∧
      r.summary = specSnippetAmended (preprocess_text q) c := by
  rw [search_buildFrom] at h
  obtain rfl : searchList corpus q k = rs := Option.some.inj h
  intro r hr
  obtain ⟨pr, _, hid, _, c, hc, hsum⟩ := mem_searchList hr
  exact ⟨c, by rw [hid]; exact hc, by rw [hsum, summaryOf_eq_specAmended]⟩

/-- Counterexample to claim C9 as stated: the snippet actually returned
for document 2 of `corpusA` under the query `"foo"` is `"foo bar."` — the
source appends a final `'.'` — while the claim's procedure (join the
matching sentences with `'. '`) yields `"foo bar"`. -/
theorem snippet_trailing_dot :
    search (buildFrom corpusA) "foo" 10 = some [res2, res1] ∧
    res2.summary = "foo bar." ∧
    specSnippet (preprocess_text "foo") "foo bar" = "foo bar" ∧
    res2.summary ≠ specSnippet (preprocess_text "foo") "foo bar" := by
  refine ⟨searchA_eval, rfl, rfl, ?_⟩
  intro h
  exact absurd h (by decide)

/-- Claim C4 (amended): `load_index` restores exactly the five serialized
structures.  An engine that, as the program's main path does, also reloads
the same documents and metadata answers every query identically to the
original built engine.  (`load_index` alone leaves the documents dict
empty; see the counterexample.) -/
theorem save_load_roundtrip (corpus : List CorpusRow) (q : String) (k : Nat) :
    search (loadCorpus (load_index emptyEngine (save_index (buildFrom corpus))) corpus) q k
      = search (buildFrom corpus) q k := by
  have he : loadCorpus (load_index emptyEngine (save_index (buildFrom corpus))) corpus
      = buildFrom corpus := rfl
  rw [he]

/-- Counterexample to claim C4 as stated: after `save_index` then
`load_index` on a fresh engine — without reloading the documents — the
engine's documents dict is empty, so the query `"foo"` returns no results,
while the original in-memory index returns two. -/
theorem load_index_alone_not_roundtrip :
    search (load_index emptyEngine (save_index (buildFrom corpusA))) "foo" 10 = some [] ∧
    search (buildFrom corpusA) "foo" 10 ≠ some [] := by
  constructor
  · rw [search]
    rw [show preprocess_text "foo" = ["foo"] from rfl,
      if_neg (show ¬(["foo"] : List String) = [] by decide)]
    have hidf : (buildFrom corpusA).idf_values.lookup "foo" =
        some (idfVal (docsOf corpusA) "foo") := by
      rw [buildFrom_idf_lookup, if_neg (by decide)]
    have hqv : queryVector (load_index emptyEngine (save_index (buildFrom corpusA)))
        ["foo"] ≠ [] := by
      rw [queryVector, show dedupF ["foo"] = ["foo"] from rfl]
      rw [show (load_index emptyEngine (save_index (buildFrom corpusA))).idf_values
        = (buildFrom corpusA).idf_values from rfl]
      simp [List.filterMap_cons, hidf]
    rw [if_neg hqv]
    rfl
  · rw [searchA_eval]
    simp

/-- Claim C5 (amended): a build does not replace prior index state:
`build_inverted_index` appends the current documents' postings to whatever
posting lists already exist, and a term with no new postings keeps its
prior list untouched.  Only a build on a fresh engine yields the
fresh-build artifacts; rebuilding on a used engine duplicates postings
instead of removing anything (see the counterexample). -/
theorem build_appends_postings (e : Engine) (t : String) :
    (postingsOf e.documents t = [] →
      (build_inverted_index e).inverted_index.lookup t = e.inverted_index.lookup t) ∧
    (postingsOf e.documents t ≠ [] →
      (build_inverted_index e).inverted_index.lookup t =
        some ((e.inverted_index.lookup t).getD [] ++ postingsOf e.documents t)) := by
  have h : (build_inverted_index e).inverted_index.lookup t =
      if postingsOf e.documents t = [] then e.inverted_index.lookup t
      else some ((e.inverted_index.lookup t).getD [] ++ postingsOf e.documents t) :=
    lookup_invFold e.documents e.inverted_index t
  exact ⟨fun hp => by rw [h, if_pos hp], fun hp => by rw [h, if_neg hp]⟩

theorem postingsOf_corpus1 : postingsOf [(0, "foo")] "foo" = [(0, tfVal "foo" "foo")] := by
  simp [postingsOf, List.filterMap_cons, show "foo" ∈ termsOf "foo" by decide]

/-- Counterexample to claim C5 as stated: running the build steps a second
time on the same engine (same one-document corpus) leaves a posting list
of length 2 for `"foo"`, while a fresh build gives length 1 — the build
does not replace the prior index. -/
theorem rebuild_duplicates_postings :
    ((build_index (buildFrom corpus1) corpus1).inverted_index.lookup "foo").map
      List.length = some 2 ∧
    ((buildFrom corpus1).inverted_index.lookup "foo").map List.length = some 1 := by
  have hp1 : postingsOf (docsOf corpus1) "foo" = [(0, tfVal "foo" "foo")] := by
    rw [show docsOf corpus1 = [(0, "foo")] from rfl]
    exact postingsOf_corpus1
  have hfresh : (buildFrom corpus1).inverted_index.lookup "foo" =
      some [(0, tfVal "foo" "foo")] := by
    rw [buildFrom_inv_lookup, hp1]
    simp
  constructor
  · have h : (build_index (buildFrom corpus1) corpus1).inverted_index.lookup "foo" =
        if postingsOf (loadCorpus (buildFrom corpus1) corpus1).documents "foo" = []
        then (loadCorpus (buildFrom corpus1) corpus1).inverted_index.lookup "foo"
        else some
          (((loadCorpus (buildFrom corpus1) corpus1).inverted_index.lookup "foo").getD []
            ++ postingsOf (loadCorpus (buildFrom corpus1) corpus1).documents "foo") :=
      lookup_invFold _ _ "foo"
    have hpd : postingsOf (loadCorpus (buildFrom corpus1) corpus1).documents "foo" =
        [(0, tfVal "foo" "foo")] := by
      rw [show (loadCorpus (buildFrom corpus1) corpus1).documents = [(0, "foo")] from rfl]
      exact postingsOf_corpus1
    have hold : (loadCorpus (buildFrom corpus1) corpus1).inverted_index.lookup "foo" =
        some [(0, tfVal "foo" "foo")] := hfresh
    rw [h, hpd, hold, if_neg (by simp : ¬([(0, tfVal "foo" "foo")] : List (Nat × ℝ)) = [])]
    simp
  · rw [hfresh]
    simp

/-! ## The loader's actual error behavior (claim C6) -/

theorem exceptFold_cons_ok {α σ ε : Type*} {f : σ → α → Except ε σ} {s s1 : σ} {a : α}
    (l : List α) (hfa : f s a = .ok s1) :
    exceptFold f s (a :: l) = exceptFold f s1 l := by
  rw [exceptFold, hfa]

theorem exceptFold_cons_error {α σ ε : Type*} {f : σ → α → Except ε σ} {s : σ} {a : α}
    {err : ε} (l : List α) (hfa : f s a = .error err) :
    exceptFold f s (a :: l) = .error err := by
  rw [exceptFold, hfa]

/-- A successfully processed metadata row has a present, parsable id. -/
theorem metadataRowStep_ok {md0 md1 : List (Nat × Meta)} {r : CsvRow}
    (h : metadataRowStep md0 r = .ok md1) :
    ∃ s k, r.id = some s ∧ parsePyNat s = some k := by
  unfold metadataRowStep at h
  split at h
  · exact Except.noConfusion h
  · rename_i s hs
    split at h
    · exact Except.noConfusion h
    · rename_i k hk
      exact ⟨s, k, hs, hk⟩

/-- A metadata fold that ran to completion validated every row. -/
theorem exceptFold_md_ok (rows : List CsvRow) :
    ∀ md0 md, exceptFold metadataRowStep md0 rows = .ok md →
      ∀ r ∈ rows, ∃ s k, r.id = some s ∧ parsePyNat s = some k := by
  induction rows with
  | nil =>
      intro md0 md h r hr
      exact absurd hr (by simp)
  | cons r0 rest ih =>
      intro md0 md h r hr
      cases hstep : metadataRowStep md0 r0 with
      | error e =>
          rw [exceptFold_cons_error rest hstep] at h
          exact Except.noConfusion h
      | ok md1 =>
          rw [exceptFold_cons_ok rest hstep] at h
          rcases List.mem_cons.mp hr with rfl | hr2
          · exact metadataRowStep_ok hstep
          · exact ih md1 md h r hr2

/-- Claim C6 (amended): the loader skips no rows and performs no emptiness
check: a load that returns normally validated every CSV row's id (the
first missing or unparsable id aborts the whole load with the raised
exception, loading nothing), and loading an empty CSV succeeds with zero
documents rather than raising any dedicated exception. -/
theorem loader_aborts_no_empty_check (rows : List CsvRow) (fs : List (String × String))
    (md : List (Nat × Meta)) (docs : List (Nat × String)) (n : Nat)
    (h : load_documents rows fs = .ok (md, docs, n)) :
    (∀ r ∈ rows, ∃ s k, r.id = some s ∧ parsePyNat s = some k) ∧
    load_documents [] fs = .ok ([], [], 0) := by
  refine ⟨?_, rfl⟩
  intro r hr
  cases hmd : exceptFold metadataRowStep [] rows with
  | error e =>
      unfold load_documents at h
      rw [hmd] at h
      exact Except.noConfusion
        (show (Except.error e : Except PyErr (List (Nat × Meta) × List (Nat × String) × Nat))
            = Except.ok (md, docs, n) from h)
  | ok md1 => exact exceptFold_md_ok rows [] md1 hmd r hr

def rowBad : CsvRow := ⟨some "x", "tX", "uX", "dX", "x.txt"⟩

def rowGood : CsvRow := ⟨some "1", "tG", "uG", "dG", "g.txt"⟩

def fsA : List (String × String) := [("g.txt", "hello"), ("x.txt", "bye")]

/-- Counterexample to claim C6 as stated: a metadata CSV whose first row
has the unparsable id `"x"` makes the loader raise `ValueError` and load
nothing — the bad row is not skipped, and the good row after it is never
reached; and a load over an empty CSV returns normally with zero
documents instead of raising an `EmptyCorpusError`. -/
theorem loader_counterexample :
    load_documents [rowBad, rowGood] fsA = .error .valueError ∧
    load_documents [] fsA = .ok ([], [], 0) := ⟨rfl, rfl⟩

/-- Counterexample to claim C7 as stated: on a freshly constructed engine,
with no index built or loaded, `search("foo")` raises nothing — in
particular no `NotReadyError` — and simply returns the empty result list. -/
theorem search_unready_counterexample :
    search emptyEngine "foo" 10 = some [] := by
  rw [search]
  rw [show preprocess_text "foo" = ["foo"] from rfl,
    if_neg (show ¬(["foo"] : List String) = [] by decide)]
  rw [if_pos (show queryVector emptyEngine ["foo"] = [] from rfl)]

/-- A two-document corpus in which the only query term occurs in every
document, so its idf is `ln 1 = 0`. -/
def corpusU : List CorpusRow := [⟨0, mA, "foo"⟩, ⟨1, mB, "foo"⟩]

/-! ## Witnesses instantiating the claim theorems on concrete corpora -/

theorem search_results_sorted_desc_witness :
    search (buildFrom corpusA) "foo" 10 = some [res2, res1] ∧
    ([res2, res1] : List SearchResult).Pairwise (fun a b => b.score ≤ a.score) :=
  ⟨searchA_eval, search_results_sorted_desc corpusA "foo" 10 [res2, res1] searchA_eval⟩

theorem search_score_bounds_witness :
    search (buildFrom corpusA) "foo" 10 = some [res2, res1] ∧
    0 < res2.score ∧ res2.score ≤ 1 :=
  ⟨searchA_eval,
    (search_score_bounds corpusA "foo" 10 [res2, res1] searchA_eval).2 res2 (by simp)⟩

theorem idf_characterization_witness :
    0 < dfN (docsOf corpusA) "foo" ∧
    ∃ ps, (buildFrom corpusA).inverted_index.lookup "foo" = some ps ∧
      ps.length = dfN (docsOf corpusA) "foo" ∧
      (buildFrom corpusA).idf_values.lookup "foo" =
        some (Real.log (((docsOf corpusA).length : ℝ) / (dfN (docsOf corpusA) "foo" : ℝ))) ∧
      0 ≤ Real.log (((docsOf corpusA).length : ℝ) / (dfN (docsOf corpusA) "foo" : ℝ)) ∧
      (Real.log (((docsOf corpusA).length : ℝ) / (dfN (docsOf corpusA) "foo" : ℝ)) = 0 ↔
        ∀ p ∈ docsOf corpusA, "foo" ∈ termsOf p.2) :=
  ⟨by decide, idf_characterization corpusA "foo" (by decide)⟩

theorem build_appends_postings_witness :
    postingsOf (buildFrom corpus1).documents "foo" ≠ [] ∧
    (build_inverted_index (buildFrom corpus1)).inverted_index.lookup "foo" =
      some (((buildFrom corpus1).inverted_index.lookup "foo").getD []
        ++ postingsOf (buildFrom corpus1).documents "foo") := by
  have hne : postingsOf (buildFrom corpus1).documents "foo" ≠ [] := by
    rw [show (buildFrom corpus1).documents = [(0, "foo")] from rfl, postingsOf_corpus1]
    simp
  exact ⟨hne, (build_appends_postings (buildFrom corpus1) "foo").2 hne⟩

theorem loader_aborts_no_empty_check_witness :
    load_documents [rowGood] fsA =
      .ok ([(1, ⟨"tG", "g.txt", "uG", "dG"⟩)], [(1, "hello")], 1) ∧
    ((∀ r ∈ [rowGood], ∃ s k, r.id = some s ∧ parsePyNat s = some k) ∧
      load_documents [] fsA = .ok ([], [], 0)) :=
  ⟨rfl, loader_aborts_no_empty_check [rowGood] fsA
    [(1, ⟨"tG", "g.txt", "uG", "dG"⟩)] [(1, "hello")] 1 rfl⟩

theorem tf_normalization_witness :
    (docsOf corpusA).lookup 2 = some "foo bar" ∧
    preprocess_text "foo bar" ≠ [] ∧
    ((termsOf "foo bar").map fun t => tfVal "foo bar" t).sum = 1 :=
  ⟨rfl, by decide, (tf_normalization corpusA 2 "foo bar" rfl (by decide)).1⟩

theorem snippet_shape_witness :
    search (buildFrom corpusA) "foo" 10 = some [res2, res1] ∧
    ∃ c, (docsOf corpusA).lookup res2.doc_id = some c ∧
      res2.summary = specSnippetAmended (preprocess_text "foo") c :=
  ⟨searchA_eval, snippet_shape corpusA "foo" 10 [res2, res1] searchA_eval res2 (by simp)⟩

theorem ubiquitous_terms_empty_result_witness :
    preprocess_text "foo" ≠ [] ∧ docsOf corpusU ≠ [] ∧
    (∀ t ∈ preprocess_text "foo", dfN (docsOf corpusU) t = (docsOf corpusU).length) ∧
    search (buildFrom corpusU) "foo" 5 = some [] :=
  ⟨by decide, by decide, by decide,
    (ubiquitous_terms_empty_result corpusU "foo" 5 (by decide) (by decide) (by decide)).2.2.2⟩
